import Mathlib

/-!
Verification of the monkeyfs specification against a shallow embedding of the
source (src/monkeyfs).  Python strings are modelled as `List Char`, bytes as
`List Nat`, and the mutable `MutableMapping[str, bytes]` state of `VirtualFS`
as an association list structure.  Mutating methods return the new state
together with an `Except` result; mutations performed before an exception is
raised are kept in the returned state, mirroring Python in-place mutation.
Wall-clock timestamps (ISO-8601 UTC strings produced by `_now_iso`) are
modelled as abstract `Nat` clock values threaded explicitly; the ISO string
order on a monotone clock agrees with the numeric order.
-/

set_option maxHeartbeats 1000000

namespace Monkeyfs

/-- Convenience: view a Lean string literal as the `List Char` used to model
Python `str` values. -/
def str (s : String) : List Char := s.data

/-! ### Association lists modelling Python dicts -/

/-- Lookup in an association list; the first binding wins (dicts have unique
keys, so on states built by the embedded operations this is exact). -/
def lookupA {κ α : Type} [DecidableEq κ] : List (κ × α) → κ → Option α
  | [], _ => none
  | (k, v) :: t, q => if k = q then some v else lookupA t q

/-- Dict assignment `d[k] = v`: replace in place if present, else append. -/
def setA {κ α : Type} [DecidableEq κ] : List (κ × α) → κ → α → List (κ × α)
  | [], k, v => [(k, v)]
  | (k0, v0) :: t, k, v => if k0 = k then (k, v) :: t else (k0, v0) :: setA t k v

/-- Dict deletion `del d[k]` / `d.pop(k, None)`. -/
def delA {κ α : Type} [DecidableEq κ] : List (κ × α) → κ → List (κ × α)
  | [], _ => []
  | (k0, v0) :: t, k => if k0 = k then delA t k else (k0, v0) :: delA t k

/-! ### Splitting and joining on the slash character

These model Python `s.split("/")` and `"/".join(parts)` exactly. -/

/-- Python `s.split("/")`: always returns at least one (possibly empty) part,
with empty parts between consecutive slashes. -/
def splitSlash : List Char → List (List Char)
  | [] => [[]]
  | c :: t =>
    if c = '/' then [] :: splitSlash t
    else
      match splitSlash t with
      | [] => [[c]]
      | h :: r => (c :: h) :: r

/-- Python `"/".join(parts)`. -/
def joinSlash : List (List Char) → List Char
  | [] => []
  | [c] => c
  | c :: rest => c ++ '/' :: joinSlash rest

/-! ### posixpath.normpath and VirtualFS._normalize_path -/

/-- One step of the component loop in posixpath.normpath.  The Python loop is
`if comp in ("", "."): continue` then the append/pop logic; `isl` is the
truthiness of `initial_slashes`. -/
def npStep (isl : Bool) (acc : List (List Char)) (comp : List Char) : List (List Char) :=
  if comp = [] ∨ comp = ['.'] then acc
  else if comp ≠ ['.', '.'] ∨ (isl = false ∧ acc = []) ∨
      (acc ≠ [] ∧ acc.getLast? = some ['.', '.']) then
    acc ++ [comp]
  else if acc ≠ [] then acc.dropLast
  else acc

/-- Leading slashes kept by normpath: one, or exactly two for the POSIX
double-slash special case. -/
def npSlashes (p : List Char) : List Char :=
  if p.take 1 = ['/'] then
    if p.take 2 = ['/', '/'] ∧ ¬ p.take 3 = ['/', '/', '/'] then ['/', '/'] else ['/']
  else []

/-- Joined component list produced by the normpath loop. -/
def npBody (p : List Char) : List Char :=
  joinSlash ((splitSlash p).foldl (npStep (decide (p.take 1 = ['/']))) [])

/-- Embedding of posixpath.normpath (POSIX flavour, as used by
os.path.normpath on the host). -/
def normpath (p : List Char) : List Char :=
  if p = [] then ['.']
  else if npSlashes p ++ npBody p = [] then ['.']
  else npSlashes p ++ npBody p

/-- Python s.lstrip("/"). -/
def lstripSlash (s : List Char) : List Char := s.dropWhile (fun c => c = '/')

/-- Python s.strip("/"). -/
def stripSlash (s : List Char) : List Char :=
  ((lstripSlash s).reverse.dropWhile (fun c => c = '/')).reverse

/-- Python s.replace("\\", "/") for the single backslash character. -/
def replaceBS (s : List Char) : List Char := s.map (fun c => if c = '\\' then '/' else c)

/-- Embedding of VirtualFS._normalize_path. -/
def normalizePath (p : List Char) : List Char :=
  if p = [] ∨ p = str "." ∨ p = str "./" ∨ p = str "/" then str "/"
  else if lstripSlash (replaceBS (normpath p)) = [] then str "/"
  else lstripSlash (replaceBS (normpath p))

/-! ### Characterisation of normalized paths -/

/-- A clean path component: what survives in the output of normpath applied to
an absolute backslash-free string. -/
def GoodComp (c : List Char) : Prop :=
  c ≠ [] ∧ c ≠ ['.'] ∧ c ≠ ['.', '.'] ∧ '/' ∉ c ∧ '\\' ∉ c

instance (c : List Char) : Decidable (GoodComp c) := by
  unfold GoodComp; infer_instance

/-- Normal form reached by `_normalize_path` on absolute backslash-free
inputs: either the root or a slash-joined list of clean components. -/
def GoodPath (z : List Char) : Prop :=
  z = str "/" ∨ ∀ c ∈ splitSlash z, GoodComp c

/-! ### UTF-8 and base32, for VirtualFS._encode_path / _decode_path

The state key for a file is PREFIX + base32(normalized_path.encode()) with
the "=" padding stripped.  The constant PREFIX is dropped in the model: the
`files` field below is keyed by the base32 stem. -/

/-- UTF-8 encoding of one character (str.encode()). -/
def utf8EncodeChar (c : Char) : List Nat :=
  let n := c.toNat
  if n < 128 then [n]
  else if n < 2048 then [192 + n / 64, 128 + n % 64]
  else if n < 65536 then [224 + n / 4096, 128 + (n / 64) % 64, 128 + n % 64]
  else [240 + n / 262144, 128 + (n / 4096) % 64, 128 + (n / 64) % 64, 128 + n % 64]

/-- Python str.encode("utf-8"). -/
def strBytes : List Char → List Nat
  | [] => []
  | c :: t => utf8EncodeChar c ++ strBytes t

/-- Most significant bit first, as 0/1 values. -/
def natBits8 (n : Nat) : List Nat :=
  [n / 128 % 2, n / 64 % 2, n / 32 % 2, n / 16 % 2, n / 8 % 2, n / 4 % 2, n / 2 % 2, n % 2]

def natBits5 (n : Nat) : List Nat :=
  [n / 16 % 2, n / 8 % 2, n / 4 % 2, n / 2 % 2, n % 2]

def bytesToBits : List Nat → List Nat
  | [] => []
  | b :: t => natBits8 b ++ bytesToBits t

def bitsVal (l : List Nat) : Nat := l.foldl (fun a b => 2 * a + b) 0

/-- Five-bit groups, the last group zero-padded: exactly the effect of
base64.b32encode followed by rstrip("="). -/
def chunks5 : List Nat → List (List Nat)
  | [] => []
  | b1 :: b2 :: b3 :: b4 :: b5 :: rest => [b1, b2, b3, b4, b5] :: chunks5 rest
  | l => [l ++ List.replicate (5 - l.length) 0]

def b32alphabet : List Char := str "ABCDEFGHIJKLMNOPQRSTUVWXYZ234567"

/-- base64.b32encode(s.encode()).decode().rstrip("="). -/
def b32encodeStr (s : List Char) : List Char :=
  (chunks5 (bytesToBits (strBytes s))).map (fun g => b32alphabet.getD (bitsVal g) 'A')

/-- Index of a character in the base32 alphabet; none models the
binascii.Error raised on characters outside the alphabet. -/
def b32charVal : List Char → Char → Option Nat
  | [], _ => none
  | a :: rest, c => if a = c then some 0 else (b32charVal rest c).map (· + 1)

def bitsOfChars : List Char → Option (List Nat)
  | [] => some []
  | c :: t =>
    match b32charVal b32alphabet c, bitsOfChars t with
    | some v, some r => some (natBits5 v ++ r)
    | _, _ => none

/-- Full 8-bit groups of the bit stream; the trailing padding bits that do
not fill a byte are discarded, as in base64.b32decode. -/
def chunks8ToBytes : List Nat → List Nat
  | b1 :: b2 :: b3 :: b4 :: b5 :: b6 :: b7 :: b8 :: rest =>
    bitsVal [b1, b2, b3, b4, b5, b6, b7, b8] :: chunks8ToBytes rest
  | _ => []

/-- UTF-8 decoding with a fuel argument (fuel = list length suffices);
none models UnicodeDecodeError. -/
def utf8DecodeGo : Nat → List Nat → Option (List Char)
  | _, [] => some []
  | 0, _ :: _ => none
  | fuel + 1, b1 :: rest =>
    if b1 < 128 then
      if Nat.isValidChar b1 then (utf8DecodeGo fuel rest).map (Char.ofNat b1 :: ·)
      else none
    else if b1 < 192 then none
    else if b1 < 224 then
      match rest with
      | b2 :: rest2 =>
        if 128 ≤ b2 ∧ b2 < 192 then
          let n := (b1 - 192) * 64 + (b2 - 128)
          if Nat.isValidChar n then (utf8DecodeGo fuel rest2).map (Char.ofNat n :: ·)
          else none
        else none
      | _ => none
    else if b1 < 240 then
      match rest with
      | b2 :: b3 :: rest2 =>
        if (128 ≤ b2 ∧ b2 < 192) ∧ (128 ≤ b3 ∧ b3 < 192) then
          let n := (b1 - 224) * 4096 + (b2 - 128) * 64 + (b3 - 128)
          if Nat.isValidChar n then (utf8DecodeGo fuel rest2).map (Char.ofNat n :: ·)
          else none
        else none
      | _ => none
    else if b1 < 248 then
      match rest with
      | b2 :: b3 :: b4 :: rest2 =>
        if (128 ≤ b2 ∧ b2 < 192) ∧ (128 ≤ b3 ∧ b3 < 192) ∧ (128 ≤ b4 ∧ b4 < 192) then
          let n := (b1 - 240) * 262144 + (b2 - 128) * 4096 + (b3 - 128) * 64 + (b4 - 128)
          if Nat.isValidChar n then (utf8DecodeGo fuel rest2).map (Char.ofNat n :: ·)
          else none
        else none
      | _ => none
    else none

/-- VirtualFS._decode_path on the base32 stem of a state key (padding is
re-added by the source before decoding; the model works on the bit level so
the padding is implicit). -/
def decodePathE (k : List Char) : Option (List Char) :=
  match bitsOfChars k with
  | none => none
  | some bits => utf8DecodeGo (chunks8ToBytes bits).length (chunks8ToBytes bits)

/-! ### VirtualFS state and operations -/

/-- Embedding of the FileMetadata dataclass (base.py).  The ISO-8601 UTC
timestamp strings are modelled as abstract Nat clock readings. -/
structure FileMetadata where
  size : Nat
  created_at : Nat
  modified_at : Nat
  is_dir : Bool := false
deriving DecidableEq, Repr

/-- The backing MutableMapping of a VirtualFS, split by its reserved keys:
`files` models the PREFIX-encoded file keys (keyed by the base32 stem),
`metadata` the pickled blob under METADATA_KEY, `cwd` the string under
CWD_KEY (none when the key is absent). -/
structure VFSState where
  files : List (List Char × List Nat)
  metadata : List (List Char × FileMetadata)
  cwd : Option (List Char)
deriving DecidableEq

/-- VirtualFS.getcwd: state.get(CWD_KEY) or "/". -/
def getcwdE (S : VFSState) : List Char :=
  match S.cwd with
  | some c => if c = [] then str "/" else c
  | none => str "/"

/-- VirtualFS.resolve_path. -/
def resolvePathE (S : VFSState) (p : List Char) : List Char :=
  if p.take 1 = ['/'] then normalizePath p
  else normalizePath (getcwdE S ++ '/' :: p)

/-- VirtualFS._encode_path: resolve against cwd, normalize, base32-encode. -/
def encodePathE (S : VFSState) (p : List Char) : List Char :=
  b32encodeStr (normalizePath (resolvePathE S p))

/-- VirtualFS._ensure_dir_cache, recomputed from the state keys (the cached
copy in the source is invalidated on every mutation, so the derived value is
the cache contents whenever it is read).  Keys that fail to decode are
skipped, as in the source. -/
def dirCacheE (S : VFSState) : List (List Char) :=
  [[], ['.']] ++ (S.files.map (fun kv =>
    match decodePathE kv.1 with
    | none => []
    | some path =>
      let parts := splitSlash (lstripSlash path)
      (List.range parts.length).map (fun i =>
        [joinSlash (parts.take i), joinSlash (parts.take i) ++ ['/']])
        |>.flatten)).flatten

/-- VirtualFS.isfile. -/
def isfileE (S : VFSState) (p : List Char) : Bool :=
  (lookupA S.files (encodePathE S p)).isSome

/-- Implicit-directory test against the cache. -/
def inDirCache (S : VFSState) (n : List Char) : Bool :=
  decide (n ∈ dirCacheE S ∨ n ++ ['/'] ∈ dirCacheE S)

/-- VirtualFS.isdir. -/
def isdirE (S : VFSState) (p : List Char) : Bool :=
  if normalizePath (resolvePathE S p) = [] ∨ normalizePath (resolvePathE S p) = str "/" then true
  else
    match lookupA S.metadata (normalizePath (resolvePathE S p)) with
    | some m =>
      if m.is_dir then true
      else inDirCache S (normalizePath (resolvePathE S p))
    | none => inDirCache S (normalizePath (resolvePathE S p))

/-- The root-to-empty adjustment in VirtualFS.exists before the cache test. -/
def existsCacheKey (S : VFSState) (p : List Char) : List Char :=
  if normalizePath (resolvePathE S p) = str "/" then [] else normalizePath (resolvePathE S p)

/-- VirtualFS.exists. -/
def existsE (S : VFSState) (p : List Char) : Bool :=
  if (lookupA S.files (encodePathE S p)).isSome then true
  else
    match lookupA S.metadata (normalizePath (resolvePathE S p)) with
    | some m =>
      if m.is_dir then true
      else inDirCache S (existsCacheKey S p)
    | none => inDirCache S (existsCacheKey S p)

/-- Error kinds raised by the embedded operations (section 7 of the spec). -/
inductive Err where
  | notFound
  | dupFile
  | notADir
  | isADir
  | notEmpty
  | permission
  | invalidArg
  | notImplemented
  | sizeLimit
  | badFd
  | keyError
deriving DecidableEq, Repr

/-- VirtualFS.read. -/
def readE (S : VFSState) (p : List Char) : Except Err (List Nat) :=
  match lookupA S.files (encodePathE S p) with
  | none => .error .notFound
  | some c => .ok c

/-- VirtualFS.stat; `now` models datetime.now for the synthesized metadata
of implicit directories. -/
def statE (S : VFSState) (p : List Char) (now : Nat) : Except Err FileMetadata :=
  if isfileE S p then
    match lookupA S.metadata (normalizePath p) with
    | some m => .ok m
    | none => .error .keyError
  else if isdirE S p then
    match lookupA S.metadata (normalizePath p) with
    | some m => .ok m
    | none => .ok ⟨0, now, now, true⟩
  else .error .notFound

/-- Parent in the source idiom: "/".join(normalized.split("/")[:-1]). -/
def parentOf (normalized : List Char) : List Char :=
  joinSlash ((splitSlash normalized).dropLast)

/-- VirtualFS.mkdir without the parents=True delegation (which the source
routes to makedirs).  Mutating operations return the updated state next to
the result; state changes made before an exception are kept, as in Python.
The local variables of the source (path = resolve_path(p), normalized,
parent) appear inline. -/
def mkdirE (S : VFSState) (p : List Char) (now : Nat) (exist_ok : Bool) :
    VFSState × Except Err Unit :=
  if parentOf (normalizePath (resolvePathE S p)) ≠ [] ∧
      ¬ isdirE S ('/' :: parentOf (normalizePath (resolvePathE S p))) then
    (S, .error .notFound)
  else if isfileE S (resolvePathE S p) then (S, .error .dupFile)
  else if isdirE S (resolvePathE S p) then
    (if exist_ok then (S, .ok ()) else (S, .error .dupFile))
  else
    (⟨S.files, setA S.metadata (normalizePath (resolvePathE S p)) ⟨0, now, now, true⟩, S.cwd⟩,
      .ok ())

/-- The loop of VirtualFS.makedirs: for i in range(len(parts)) create
"/" + "/".join(parts[:i+1]); `done` holds the components already handled. -/
def makedirsGo (now : Nat) :
    VFSState → List (List Char) → List (List Char) → VFSState × Except Err Unit
  | S, _, [] => (S, .ok ())
  | S, done, c :: rest =>
    if isfileE S ('/' :: joinSlash (done ++ [c])) then (S, .error .dupFile)
    else if ¬ isdirE S ('/' :: joinSlash (done ++ [c])) then
      match mkdirE S ('/' :: joinSlash (done ++ [c])) now true with
      | (S', .ok _) => makedirsGo now S' (done ++ [c]) rest
      | (S', .error e) => (S', .error e)
    else makedirsGo now S (done ++ [c]) rest

/-- VirtualFS.makedirs (the exist_ok parameter is unused in the source
body, so it is omitted). -/
def makedirsE (S : VFSState) (p : List Char) (now : Nat) : VFSState × Except Err Unit :=
  makedirsGo now S [] (splitSlash (stripSlash (resolvePathE S p)))

/-- Total size in _get_current_size: sum of non-directory metadata sizes. -/
def currentSizeE (S : VFSState) : Nat :=
  (S.metadata.map (fun kv => if kv.2.is_dir then 0 else kv.2.size)).sum

/-- The existing-file allowance in _check_size_limit: metadata.get with the
zero-size default, keyed by the plain normalized path. -/
def existingSizeE (S : VFSState) (p : List Char) : Nat :=
  match lookupA S.metadata (normalizePath p) with
  | some m => m.size
  | none => 0

/-- VirtualFS._check_size_limit.  The subtraction is on Python ints, hence
the Int cast. -/
def checkSizeLimitE (maxSize : Option Nat) (S : VFSState) (p : List Char) (newSize : Nat) :
    Except Err Unit :=
  match maxSize with
  | none => .ok ()
  | some mx =>
    if (currentSizeE S : Int) - existingSizeE S p + newSize > (mx : Int) then
      .error .sizeLimit
    else .ok ()

/-- The metadata key _update_file_metadata writes to: the source normalizes
it only in the is_new branch. -/
def updateKey (p : List Char) (is_new : Bool) : List Char :=
  if is_new then normalizePath p else p

/-- VirtualFS._update_file_metadata. -/
def updateFileMetadataE (S : VFSState) (p : List Char) (size : Nat) (is_new : Bool)
    (now : Nat) : VFSState :=
  match lookupA S.metadata (updateKey p is_new) with
  | some m =>
    if is_new then
      { S with metadata := setA S.metadata (updateKey p is_new) ⟨size, now, now, false⟩ }
    else
      { S with metadata := setA S.metadata (updateKey p is_new) ⟨size, m.created_at, now, false⟩ }
  | none =>
    { S with metadata := setA S.metadata (updateKey p is_new) ⟨size, now, now, false⟩ }

/-- The parent auto-creation block at the top of VirtualFS.write. -/
def writeParent (S : VFSState) (p : List Char) (now : Nat) : VFSState × Except Err Unit :=
  if parentOf (normalizePath (resolvePathE S p)) ≠ [] ∧
      ¬ isdirE S ('/' :: parentOf (normalizePath (resolvePathE S p))) then
    makedirsE S ('/' :: parentOf (normalizePath (resolvePathE S p))) now
  else (S, .ok ())

/-- The append handling and mode validation of VirtualFS.write. -/
def writeContent (S1 : VFSState) (p : List Char) (content : List Nat) (mode : List Char) :
    Except Err (List Nat) :=
  if mode = str "a" then
    match readE S1 p with
    | .ok ex => .ok (ex ++ content)
    | .error _ => .ok content
  else if mode = str "w" then .ok content
  else .error .invalidArg

/-- The mutation tail of VirtualFS.write: store content under the encoded
key and update metadata (is_new is decided before the store). -/
def writeCommit (S1 : VFSState) (p : List Char) (content2 : List Nat) (now : Nat) : VFSState :=
  updateFileMetadataE { S1 with files := setA S1.files (encodePathE S1 p) content2 }
    p content2.length (lookupA S1.files (encodePathE S1 p)).isNone now

/-- VirtualFS.write.  Content is bytes by type, so the TypeError branch is
unrepresentable; the cache invalidations are implicit because the caches are
recomputed derived values in the model. -/
def writeE (maxSize : Option Nat) (S : VFSState) (p : List Char) (content : List Nat)
    (now : Nat) (mode : List Char) : VFSState × Except Err Unit :=
  match writeParent S p now with
  | (S1, .error e) => (S1, .error e)
  | (S1, .ok _) =>
    match writeContent S1 p content mode with
    | .error e => (S1, .error e)
    | .ok content2 =>
      match checkSizeLimitE maxSize S1 p content2.length with
      | .error e => (S1, .error e)
      | .ok _ => (writeCommit S1 p content2 now, .ok ())

/-- Result of VirtualFS.open: a read handle over a copy of the content
(io.BytesIO / io.StringIO), or a VirtualFile write buffer remembering the
state key and the preloaded content for append mode. -/
inductive OpenOutcome where
  | readHandle (content : List Nat)
  | writeHandle (key : List Char) (initial : List Nat)
deriving DecidableEq, Repr

/-- The VirtualFile append preload: state.get(key) if it is there. -/
def appendInit (S : VFSState) (p : List Char) (mode : List Char) : List Nat :=
  if 'a' ∈ mode then
    match lookupA S.files (encodePathE S p) with
    | some ex => ex
    | none => []
  else []

/-- VirtualFS.open.  Opening mutates nothing: the write handle persists only
when closed, via VirtualFS.write. -/
def openE (S : VFSState) (p : List Char) (mode : List Char) : Except Err OpenOutcome :=
  if 'r' ∈ mode ∧ 'w' ∉ mode ∧ 'a' ∉ mode ∧ 'x' ∉ mode then
    match lookupA S.files (encodePathE S p) with
    | none => .error .notFound
    | some c => .ok (.readHandle c)
  else if 'w' ∈ mode ∨ 'a' ∈ mode ∨ 'x' ∈ mode then
    if 'x' ∈ mode ∧ existsE S p then .error .dupFile
    else if parentOf (normalizePath (resolvePathE S p)) ≠ [] ∧
        ¬ isdirE S ('/' :: parentOf (normalizePath (resolvePathE S p))) then
      .error .notFound
    else .ok (.writeHandle (encodePathE S p) (appendInit S p mode))
  else .error .invalidArg

/-! ### The task-local activation cell (context.py, install.py) -/

/-- A contextvars.ContextVar cell.  ContextVar.set returns a token carrying
the previous value; ContextVar.reset(token) restores exactly that value. -/
structure CtxCell (α : Type) where
  val : α
deriving DecidableEq

/-- ContextVar.set: returns the new cell and the token (the prior value). -/
def ctxSet {α : Type} (c : CtxCell α) (v : α) : CtxCell α × α := (⟨v⟩, c.val)

/-- ContextVar.reset(token). -/
def ctxReset {α : Type} (tok : α) : CtxCell α := ⟨tok⟩

/-- The `patch(fs)` context manager of install.py restricted to its effect
on the current_fs cell: set inside a try, reset in the finally, so the reset
runs also when the body raises.  The body receives the cell and may mutate
it arbitrarily; its Except result records whether it raised. -/
def patchScope {α β E : Type} (fs : α) (c : CtxCell (Option α))
    (body : CtxCell (Option α) → CtxCell (Option α) × Except E β) :
    CtxCell (Option α) × Except E β :=
  match ctxSet c (some fs) with
  | (c1, tok) =>
    match body c1 with
    | (_, r) => (ctxReset tok, r)

/-- The suspend_fs_interception context manager of context.py: identical
shape with the cell set to none. -/
def suspendScope {α β E : Type} (c : CtxCell (Option α))
    (body : CtxCell (Option α) → CtxCell (Option α) × Except E β) :
    CtxCell (Option α) × Except E β :=
  match ctxSet c none with
  | (c1, tok) =>
    match body c1 with
    | (_, r) => (ctxReset tok, r)

/-! ### Routing wrappers (patching/patches.py)

The globals a wrapper reads (the recursion guards, current_fs, the safe
system path oracle and the snapshotted originals) are passed as arguments.
The integer-fd and opener branches of _vfs_open concern descriptor plumbing
and are not taken for a plain string path with no opener, the case modelled
here. -/

/-- Embedding of _vfs_open for a string path without opener.  `fsOpen` is
the bound fs.open when an FS is active; `origOpen` the snapshotted builtin. -/
def vfsOpenWrap {α : Type} (inVfsOp : Bool)
    (fsOpen : Option (List Char → List Char → Except Err α))
    (isSafe : List Char → Bool) (origOpen : List Char → Except Err α)
    (p : List Char) (mode : List Char) : Except Err α :=
  if inVfsOp then origOpen p
  else
    match fsOpen with
    | none => origOpen p
    | some fo =>
      match fo p mode with
      | .ok h => .ok h
      | .error e =>
        if e = .permission ∨ e = .notFound then
          if 'w' ∉ mode ∧ 'a' ∉ mode ∧ '+' ∉ mode ∧ 'x' ∉ mode ∧ isSafe p then origOpen p
          else .error e
        else .error e

/-- Embedding of _vfs_stat.  NotADirectoryError joins FileNotFoundError in
the except clause and the re-raise carries ENOENT, hence notADir maps to
notFound when not falling back. -/
def vfsStatWrap {ρ : Type} (inSafeCheck : Bool)
    (fsStat : Option (List Char → Except Err FileMetadata))
    (isSafe : List Char → Bool) (origStat : List Char → Except Err ρ)
    (conv : FileMetadata → ρ) (p : List Char) : Except Err ρ :=
  if inSafeCheck then origStat p
  else
    match fsStat with
    | none => origStat p
    | some fstat =>
      match fstat p with
      | .ok m => .ok (conv m)
      | .error .permission => if isSafe p then origStat p else .error .permission
      | .error .notFound => if isSafe p then origStat p else .error .notFound
      | .error .notADir => if isSafe p then origStat p else .error .notFound
      | .error e => .error e

/-- Embedding of _vfs_expanduser. -/
def vfsExpanduserWrap (active : Bool) (orig : List Char → List Char)
    (p : List Char) : List Char :=
  if active then
    if p.take 1 = ['~'] then
      if p.take 2 = ['~', '/'] then '/' :: p.drop 2 else str "/"
    else p
  else orig p

/-- Embedding of _vfs_getenv; orig covers the default-argument behaviour. -/
def vfsGetenvWrap (active : Bool) (orig : List Char → Option (List Char))
    (key : List Char) : Option (List Char) :=
  if active ∧ key = str "HOME" then some (str "/") else orig key

/-- Boolean list-of-lists comparison used for Path.relative_to style checks. -/
def isPre {α : Type} [DecidableEq α] : List α → List α → Bool
  | [], _ => true
  | _ :: _, [] => false
  | a :: as, b :: bs => a = b && isPre as bs

/-- Replace-all of a literal pattern, scanning left to right without
rescanning the replacement: re.sub with a literal regex. -/
def subLitGo (pat repl : List Char) : Nat → List Char → List Char
  | _, [] => []
  | 0, s => s
  | fuel + 1, c :: t =>
    if isPre pat (c :: t) ∧ pat ≠ [] then
      repl ++ subLitGo pat repl fuel ((c :: t).drop pat.length)
    else c :: subLitGo pat repl fuel t

def subLit (pat repl s : List Char) : List Char := subLitGo pat repl s.length s

/-- Word character in the sense of the regex \b boundary (ASCII relevant
range). -/
def isWordChar (c : Char) : Bool := c.isAlphanum || c = '_'

def atBoundary : List Char → Bool
  | [] => true
  | d :: _ => ¬ isWordChar d

/-- Replace-all for the pattern \$HOME\b. -/
def subHomeBGo : Nat → List Char → List Char
  | _, [] => []
  | 0, s => s
  | fuel + 1, c :: t =>
    if isPre (str "$HOME") (c :: t) ∧ atBoundary ((c :: t).drop 5) then
      '/' :: subHomeBGo fuel ((c :: t).drop 5)
    else c :: subHomeBGo fuel t

def subHomeB (s : List Char) : List Char := subHomeBGo s.length s

/-- Embedding of _vfs_expandvars: the four re.sub calls in source order. -/
def vfsExpandvarsWrap (active : Bool) (orig : List Char → List Char)
    (p : List Char) : List Char :=
  if active then
    subLit (str "$\x7bHOME\x7d") (str "/")
      (subHomeB
        (subLit (str "$\x7bHOME\x7d/") (str "/")
          (subLit (str "$HOME/") (str "/") p)))
  else orig p

/-- What the routed utime did: nothing virtual, or a delegation to the
original primitive. -/
inductive UtimeOutcome where
  | virtualNoop
  | origCall
deriving DecidableEq, Repr

/-- Embedding of _vfs_utime over a VirtualFS state.  Note the body never
touches the state nor reads `times` when the path exists in the FS. -/
def vfsUtimeWrap (active : Bool) (S : VFSState) (isSafe : List Char → Bool)
    (p : List Char) (_times : Option (Nat × Nat)) : VFSState × Except Err UtimeOutcome :=
  if active then
    if existsE S p then (S, .ok .virtualNoop)
    else if isSafe p then (S, .ok .origCall)
    else (S, .error .notFound)
  else (S, .ok .origCall)

/-- Embedding of _require + _vfs_symlink: getattr(fs, "symlink", None);
a missing attribute raises NotImplementedError. -/
def vfsSymlinkWrap (active : Bool)
    (attr : Option (List Char → List Char → Except Err Unit))
    (orig : List Char → List Char → Except Err Unit)
    (src dst : List Char) : Except Err Unit :=
  if active then
    match attr with
    | none => .error .notImplemented
    | some f => f src dst
  else orig src dst

/-- Embedding of _vfs_readlink.  The NotImplementedError from _require is
raised outside the try of the OSError-family catch, so it never falls back;
backend OSError-family failures fall back only on safe system paths. -/
def vfsReadlinkWrap (inSafeCheck active : Bool)
    (attr : Option (List Char → Except Err (List Char)))
    (isSafe : List Char → Bool)
    (orig : List Char → Except Err (List Char))
    (p : List Char) : Except Err (List Char) :=
  if inSafeCheck then orig p
  else if active then
    match attr with
    | none => .error .notImplemented
    | some f =>
      match f p with
      | .ok t => .ok t
      | .error e => if isSafe p then orig p else .error e
  else orig p

/-- IsolatedFS (isolated.py) defines no symlink method, so the getattr in
_require yields None. -/
def isolatedSymlinkAttr : Option (List Char → List Char → Except Err Unit) := none

/-- IsolatedFS defines no readlink method either. -/
def isolatedReadlinkAttr : Option (List Char → Except Err (List Char)) := none

/-- VirtualFS.symlink raises OSError(EPERM, ...). -/
def virtualSymlinkAttr : Option (List Char → List Char → Except Err Unit) :=
  some (fun _ _ => .error .permission)

/-- VirtualFS.readlink raises OSError(EINVAL, ...). -/
def virtualReadlinkAttr : Option (List Char → Except Err (List Char)) :=
  some (fun _ => .error .invalidArg)

/-! ### Virtual fd table (patching/fdtable.py) -/

/-- os.open flag constants (Linux values, the platform of this repo). -/
def oWRONLY : Nat := 1
def oRDWR : Nat := 2
def oCREAT : Nat := 64
def oEXCL : Nat := 128
def oTRUNC : Nat := 512
def oAPPEND : Nat := 1024

/-- An io.BytesIO buffer: contents plus cursor. -/
structure VFDBuf where
  content : List Nat
  pos : Nat
deriving DecidableEq, Repr

/-- BytesIO.write at the cursor: overwrite in place, zero-fill any gap,
return the new buffer and the byte count written. -/
def bufWrite (b : VFDBuf) (data : List Nat) : VFDBuf × Nat :=
  let padded :=
    if b.content.length < b.pos then
      b.content ++ List.replicate (b.pos - b.content.length) 0
    else b.content
  (⟨padded.take b.pos ++ data ++ padded.drop (b.pos + data.length), b.pos + data.length⟩,
    data.length)

/-- Embedding of the VirtualFD dataclass.  The fs field of the source holds
the (single, shared) active backend whose state is threaded separately. -/
structure VirtualFD where
  path : List Char
  buffer : VFDBuf
  flags : Nat
  mode : Nat
  writable : Bool
  readable : Bool
  closed : Bool := false
deriving DecidableEq, Repr

/-- Embedding of VirtualFDTable: fd-keyed entries and the next-fd counter,
starting at the disjoint base 10000. -/
structure FDTable where
  entries : List (Nat × VirtualFD)
  nextFd : Nat := 10000
deriving DecidableEq, Repr

/-- The backend surface VirtualFDTable.allocate/close touch: duck-typed
method calls on the fs object, over a backend state σ. -/
structure FSOps (σ : Type) where
  resolve_path : σ → List Char → List Char
  fsexists : σ → List Char → Bool
  fsread : σ → List Char → Except Err (List Nat)
  fswrite : σ → List Char → List Nat → σ × Except Err Unit
  fsmakedirs : σ → List Char → σ × Except Err Unit

/-- Embedding of os.path.dirname (posixpath.dirname). -/
def dirname (p : List Char) : List Char :=
  if '/' ∉ p then []
  else
    let head := ((p.reverse.dropWhile (fun c => c ≠ '/'))).reverse
    if head ≠ [] ∧ head ≠ List.replicate head.length '/' then
      (head.reverse.dropWhile (fun c => c = '/')).reverse
    else head

/-- Buffer preloading in VirtualFDTable.allocate: load the current bytes
unless truncating, position at the end for O_APPEND, start otherwise.  Only
FileNotFoundError is swallowed. -/
def allocBuf {σ : Type} (ops : FSOps σ) (s : σ) (resolved : List Char) (flags : Nat)
    (fileEx : Bool) : Except Err VFDBuf :=
  if fileEx ∧ flags &&& oTRUNC = 0 then
    match ops.fsread s resolved with
    | .ok content =>
      if flags &&& oAPPEND ≠ 0 then .ok ⟨content, content.length⟩
      else .ok ⟨content, 0⟩
    | .error .notFound => .ok ⟨[], 0⟩
    | .error e => .error e
  else .ok ⟨[], 0⟩

/-- The O_CREAT registration in VirtualFDTable.allocate: auto-create absent
parents and write an empty file through the backend (the backend-op guard it
runs under suppresses re-interception and has no further model effect). -/
def allocCreate {σ : Type} (ops : FSOps σ) (s : σ) (resolved : List Char) (flags : Nat)
    (fileEx : Bool) : σ × Except Err Unit :=
  if flags &&& oCREAT ≠ 0 ∧ ¬ fileEx then
    match (if dirname resolved ≠ [] ∧ dirname resolved ≠ str "/"
           then ops.fsmakedirs s (dirname resolved)
           else ((s, .ok ()) : σ × Except Err Unit)) with
    | (sa, .error e) => (sa, .error e)
    | (sa, .ok _) => ops.fswrite sa resolved []
  else (s, .ok ())

/-- Embedding of VirtualFDTable.allocate. -/
def allocateE {σ : Type} (ops : FSOps σ) (s : σ) (tbl : FDTable) (path : List Char)
    (flags : Nat) (fileMode : Nat) : (σ × FDTable) × Except Err Nat :=
  if flags &&& oCREAT ≠ 0 ∧ flags &&& oEXCL ≠ 0 ∧
      ops.fsexists s (ops.resolve_path s path) then
    ((s, tbl), .error .dupFile)
  else if flags &&& oCREAT = 0 ∧ ¬ ops.fsexists s (ops.resolve_path s path) then
    ((s, tbl), .error .notFound)
  else
    match allocBuf ops s (ops.resolve_path s path) flags
        (ops.fsexists s (ops.resolve_path s path)) with
    | .error e => ((s, tbl), .error e)
    | .ok buf =>
      match allocCreate ops s (ops.resolve_path s path) flags
          (ops.fsexists s (ops.resolve_path s path)) with
      | (s1, .error e) => ((s1, tbl), .error e)
      | (s1, .ok _) =>
        ((s1,
          { entries := (tbl.nextFd,
              ⟨ops.resolve_path s path, buf, flags, fileMode,
                flags &&& 3 = 1 ∨ flags &&& 3 = 2,
                flags &&& 3 = 0 ∨ flags &&& 3 = 2, false⟩) :: tbl.entries,
            nextFd := tbl.nextFd + 1 }),
          .ok tbl.nextFd)

/-- Embedding of _vfs_os_write: virtual fds write into their buffer, other
fds delegate to the original primitive. -/
def vfsOsWriteWrap (tbl : FDTable) (orig : Nat → List Nat → Except Err Nat)
    (fd : Nat) (data : List Nat) : FDTable × Except Err Nat :=
  match lookupA tbl.entries fd with
  | some vfd =>
    if ¬ vfd.writable then (tbl, .error .badFd)
    else
      ({ tbl with entries := setA tbl.entries fd { vfd with buffer := (bufWrite vfd.buffer data).1 } },
        .ok (bufWrite vfd.buffer data).2)
  | none => (tbl, orig fd data)

/-- Embedding of VirtualFDTable.close (reached from _vfs_os_close for
virtual fds): pop the entry, EBADF when absent, flush the whole buffer via
fs.write when the fd was writable. -/
def fdCloseE {σ : Type} (ops : FSOps σ) (s : σ) (tbl : FDTable) (fd : Nat) :
    (σ × FDTable) × Except Err Unit :=
  match lookupA tbl.entries fd with
  | none => ((s, tbl), .error .badFd)
  | some vfd =>
    if vfd.closed then ((s, { tbl with entries := delA tbl.entries fd }), .ok ())
    else if vfd.writable then
      match ops.fswrite s vfd.path vfd.buffer.content with
      | (s2, .ok _) => ((s2, { tbl with entries := delA tbl.entries fd }), .ok ())
      | (s2, .error e) => ((s2, { tbl with entries := delA tbl.entries fd }), .error e)
    else ((s, { tbl with entries := delA tbl.entries fd }), .ok ())

/-! ### IsolatedFS path validation (isolated.py) -/

/-- pathlib PurePosixPath component list (without the anchor): empty and
single-dot entries vanish when parsing. -/
def pparts (s : List Char) : List (List Char) :=
  (splitSlash s).filter (fun c => ¬ (c = [] ∨ c = ['.']))

/-- The string _validate_path works on: the cwd is prepended to relative
inputs before any normalization, preserving traversal attempts for the
boundary check. -/
def vpStr (cwd path : List Char) : List Char :=
  if ¬ path.take 1 = ['/'] then cwd ++ '/' :: path else path

/-- The candidate host path _validate_path resolves: virtual-absolute paths
already under the root pass through, other absolute paths are re-rooted, and
relative ones are joined to the root. -/
def vpResolved (root : List (List Char)) (resolver : List (List Char) → List (List Char))
    (cwd : List Char) (path : List Char) : List (List Char) :=
  if (vpStr cwd path).take 1 = ['/'] then
    if isPre root (pparts (vpStr cwd path)) then resolver (pparts (vpStr cwd path))
    else resolver (root ++ pparts (vpStr cwd path))
  else resolver (root ++ pparts (vpStr cwd path))

/-- Embedding of IsolatedFS._validate_path.  Host paths are component lists
under an absolute root; `resolver` models pathlib.Path.resolve, which
follows symlinks and normalizes "..", and is arbitrary here.  The final
boundary check makes the postcondition independent of the resolver. -/
def validatePath (root : List (List Char)) (resolver : List (List Char) → List (List Char))
    (cwd : List Char) (path : List Char) : Except Err (List (List Char)) :=
  if isPre root (vpResolved root resolver cwd path) then .ok (vpResolved root resolver cwd path)
  else .error .permission

/-- Modelled from the spec: the non-following validation variant of
IsolatedFS (spec 4.6) that resolves the parent only and keeps the final
component, used by symlink operations; it is not present in src. -/
def validateNoFollow (root : List (List Char)) (resolver : List (List Char) → List (List Char))
    (cwd : List Char) (path : List Char) : Except Err (List (List Char)) :=
  match (pparts (vpStr cwd path)).getLast? with
  | none =>
    if isPre root (resolver root) then .ok (resolver root) else .error .permission
  | some last =>
    if isPre root (resolver (root ++ (pparts (vpStr cwd path)).dropLast)) then
      .ok (resolver (root ++ (pparts (vpStr cwd path)).dropLast) ++ [last])
    else .error .permission

/-- Modelled from the spec: IsolatedFS.symlink is absent from src (only its
tests and the router caller _vfs_symlink reference it).  Spec 4.6: symlink
requires both source and destination to resolve under the root, the
destination via the non-following variant. -/
def symlinkIFS (root : List (List Char)) (resolver : List (List Char) → List (List Char))
    (cwd : List Char) (src dst : List Char) : Except Err Unit :=
  match validatePath root resolver cwd src with
  | .error e => .error e
  | .ok _ =>
    match validateNoFollow root resolver cwd dst with
    | .error e => .error e
    | .ok _ => .ok ()

/-- Modelled from the spec: IsolatedFS.readlink is absent from src.  Spec
4.6: readlink refuses to return a target that would escape the root.
`readTarget` models os.readlink on the host link location. -/
def readlinkIFS (root : List (List Char)) (resolver : List (List Char) → List (List Char))
    (cwd : List Char) (readTarget : List (List Char) → Option (List (List Char)))
    (p : List Char) : Except Err (List (List Char)) :=
  match validateNoFollow root resolver cwd p with
  | .error e => .error e
  | .ok loc =>
    match readTarget loc with
    | none => .error .notFound
    | some tgt =>
      if isPre root (resolver tgt) then .ok tgt else .error .permission


/-! ### Concrete states used to evaluate the theorems -/

/-- A freshly constructed VirtualFS over an empty mapping. -/
def emptyVFS : VFSState := ⟨[], [], none⟩

/-- State after writing one byte to "a" at clock 0. -/
def aliasState1 : VFSState := (writeE none emptyVFS (str "a") [120] 0 (str "w")).1

/-- State after overwriting the same file through the alias "./a" with two
bytes at clock 1. -/
def aliasState2 : VFSState := (writeE none aliasState1 (str "./a") [120, 121] 1 (str "w")).1

/-- A state holding one explicit directory entry "d/x" whose parent "d" does
not exist (reachable by makedirs("/a") then rename("/a", "/d/x")). -/
def dirOnlyState : VFSState := ⟨[], [(str "d/x", ⟨0, 0, 0, true⟩)], none⟩

/-- A state with one two-byte file "file.txt" created and modified at
clock 5. -/
def utimeState : VFSState :=
  ⟨[(b32encodeStr (str "file.txt"), [104, 105])], [(str "file.txt", ⟨2, 5, 5, false⟩)], none⟩

/-- A minimum-viable backend over a flat mapping, as the fd table sees one:
resolution is the identity, reads and writes hit the mapping directly and
makedirs always succeeds. -/
def listFS : FSOps (List (List Char × List Nat)) where
  resolve_path := fun _ p => p
  fsexists := fun s p => (lookupA s p).isSome
  fsread := fun s p =>
    match lookupA s p with
    | some c => .ok c
    | none => .error .notFound
  fswrite := fun s p c => (setA s p c, .ok ())
  fsmakedirs := fun s _ => (s, .ok ())

/-- A state with a non-root cwd whose mkdir probes alias: cwd "/sub" with
the single explicit directory entry "sub/sub" and no files (VirtualFS takes
its backing mapping in the constructor, so this state is a direct input). -/
def cwdState : VFSState := ⟨[], [(str "sub/sub", ⟨0, 0, 0, true⟩)], some (str "/sub")⟩

/-- Backend state holding the three-byte file "t". -/
def fdState0 : List (List Char × List Nat) := [(str "t", [120, 121, 122])]

/-- A fresh fd table. -/
def fdTable0 : FDTable := ⟨[], 10000⟩

/-- Result of a low-level open of "t" with plain O_WRONLY (no truncation). -/
def fdAlloc0 : (List (List Char × List Nat) × FDTable) × Except Err Nat :=
  allocateE listFS fdState0 fdTable0 (str "t") oWRONLY 438

/-- Table after writing one byte through the freshly allocated descriptor. -/
def fdTableW : FDTable :=
  (vfsOsWriteWrap fdAlloc0.1.2 (fun _ _ => .error .badFd) 10000 [97]).1

/-- Result of closing that descriptor: the buffer is flushed to the backend. -/
def fdClose0 : (List (List Char × List Nat) × FDTable) × Except Err Unit :=
  fdCloseE listFS fdAlloc0.1.1 fdTableW 10000

/-! ## Theorems: properties of the helper layer -/

theorem lookupA_setA_self {κ α : Type} [DecidableEq κ] (l : List (κ × α)) (k : κ) (v : α) :
    lookupA (setA l k v) k = some v := by
  induction l with
  | nil => simp [setA, lookupA]
  | cons h t ih =>
    obtain ⟨k0, v0⟩ := h
    by_cases hk : k0 = k
    · simp [setA, hk, lookupA]
    · simp [setA, hk, lookupA, ih]

theorem lookupA_setA_ne {κ α : Type} [DecidableEq κ] (l : List (κ × α)) (k q : κ) (v : α)
    (h : k ≠ q) : lookupA (setA l k v) q = lookupA l q := by
  induction l with
  | nil => simp [setA, lookupA, h]
  | cons hd t ih =>
    obtain ⟨k0, v0⟩ := hd
    by_cases hk : k0 = k
    · subst hk
      simp [setA, lookupA, h]
    · simp [setA, hk, lookupA, ih]

theorem splitSlash_ne_nil (s : List Char) : splitSlash s ≠ [] := by
  cases s with
  | nil => simp [splitSlash]
  | cons c t =>
    by_cases h : c = '/'
    · simp [splitSlash, h]
    · simp only [splitSlash, h, if_false]
      cases splitSlash t <;> simp

theorem joinSlash_splitSlash (s : List Char) : joinSlash (splitSlash s) = s := by
  induction s with
  | nil => simp [splitSlash, joinSlash]
  | cons c t ih =>
    by_cases h : c = '/'
    · subst h
      have hne := splitSlash_ne_nil t
      cases hsp : splitSlash t with
      | nil => exact absurd hsp hne
      | cons h0 r =>
        rw [hsp] at ih
        simp [splitSlash, hsp, joinSlash, ih]
    · have hne := splitSlash_ne_nil t
      cases hsp : splitSlash t with
      | nil => exact absurd hsp hne
      | cons h0 r =>
        rw [hsp] at ih
        cases r with
        | nil => simp_all [splitSlash, hsp, joinSlash]
        | cons r0 rr => simp_all [splitSlash, hsp, joinSlash]

/-- Splitting a single slash-free component followed by a slash peels it off. -/
theorem splitSlash_append_slash (c : List Char) (t : List Char) (hc : '/' ∉ c) :
    splitSlash (c ++ '/' :: t) = c :: splitSlash t := by
  induction c with
  | nil => simp [splitSlash]
  | cons a as ih =>
    have ha : a ≠ '/' := by
      intro h; exact hc (by simp [h])
    have has : '/' ∉ as := fun h => hc (by simp [h])
    have ih2 := ih has
    simp only [List.cons_append, splitSlash, ha, if_false]
    rw [show as.append ('/' :: t) = as ++ '/' :: t from rfl, ih2]

theorem splitSlash_joinSlash (l : List (List Char)) (hl : l ≠ [])
    (hc : ∀ c ∈ l, '/' ∉ c) : splitSlash (joinSlash l) = l := by
  induction l with
  | nil => exact absurd rfl hl
  | cons c rest ih =>
    cases rest with
    | nil =>
      simp only [joinSlash]
      have hcc : '/' ∉ c := hc c (by simp)
      clear hl ih hc
      induction c with
      | nil => simp [splitSlash]
      | cons a as iha =>
        have ha : a ≠ '/' := by
          intro h; exact hcc (by simp [h])
        have has : '/' ∉ as := fun h => hcc (by simp [h])
        have iha2 := iha has
        simp only [splitSlash, ha, if_false]
        rw [iha2]
    | cons r0 rr =>
      have hcc : '/' ∉ c := hc c (by simp)
      have hrest : splitSlash (joinSlash (r0 :: rr)) = r0 :: rr :=
        ih (by simp) (fun x hx => hc x (by simp [hx]))
      simp only [joinSlash]
      rw [splitSlash_append_slash c _ hcc, hrest]

theorem replaceBS_id (s : List Char) (h : '\\' ∉ s) : replaceBS s = s := by
  induction s with
  | nil => rfl
  | cons a t ih =>
    have ha : a ≠ '\\' := fun hh => h (by simp [hh])
    have ht : '\\' ∉ t := fun hh => h (by simp [hh])
    simp [replaceBS, ha, ih ht] at *
    simpa [replaceBS] using ih ht

theorem splitSlash_no_slash (s : List Char) : ∀ c ∈ splitSlash s, '/' ∉ c := by
  induction s with
  | nil => intro c hc; simp [splitSlash] at hc; simp [hc]
  | cons a t ih =>
    intro c hc
    by_cases ha : a = '/'
    · simp [splitSlash, ha] at hc
      rcases hc with hc | hc
      · simp [hc]
      · exact ih c hc
    · simp only [splitSlash, ha, if_false] at hc
      cases hsp : splitSlash t with
      | nil => exact absurd hsp (splitSlash_ne_nil t)
      | cons h0 r =>
        rw [hsp] at hc
        simp at hc
        rcases hc with hc | hc
        · subst hc
          intro hmem
          simp at hmem
          rcases hmem with hmem | hmem
          · exact ha hmem.symm
          · exact ih h0 (by rw [hsp]; simp) hmem
        · exact ih c (by rw [hsp]; simp [hc])

theorem splitSlash_chars (s : List Char) : ∀ c ∈ splitSlash s, ∀ a ∈ c, a ∈ s := by
  induction s with
  | nil => intro c hc; simp [splitSlash] at hc; simp [hc]
  | cons b t ih =>
    intro c hc a ha
    by_cases hb : b = '/'
    · simp [splitSlash, hb] at hc
      rcases hc with hc | hc
      · simp [hc] at ha
      · simp [ih c hc a ha]
    · simp only [splitSlash, hb, if_false] at hc
      cases hsp : splitSlash t with
      | nil => exact absurd hsp (splitSlash_ne_nil t)
      | cons h0 r =>
        rw [hsp] at hc
        simp at hc
        rcases hc with hc | hc
        · subst hc
          simp at ha
          rcases ha with ha | ha
          · simp [ha]
          · simp [ih h0 (by rw [hsp]; simp) a ha]
        · simp [ih c (by rw [hsp]; simp [hc]) a ha]

theorem mem_of_mem_dropLast {α : Type} {a : α} : ∀ {l : List α}, a ∈ l.dropLast → a ∈ l := by
  intro l
  induction l with
  | nil => intro h; simp at h
  | cons b t ih =>
    intro h
    cases t with
    | nil => simp at h
    | cons c u =>
      simp only [List.dropLast_cons₂, List.mem_cons] at h
      rcases h with h | h
      · simp [h]
      · simp [ih (by simpa using h)]

theorem mem_of_getLast?_eq {α : Type} {a : α} : ∀ {l : List α}, l.getLast? = some a → a ∈ l := by
  intro l
  induction l with
  | nil => intro h; simp at h
  | cons b t ih =>
    intro h
    cases t with
    | nil => simp_all
    | cons c u =>
      rw [List.getLast?_cons_cons] at h
      simp [ih h]

theorem mem_of_mem_dropWhile {α : Type} {a : α} {q : α → Bool} :
    ∀ {l : List α}, a ∈ l.dropWhile q → a ∈ l := by
  intro l
  induction l with
  | nil => intro h; simp [List.dropWhile] at h
  | cons b t ih =>
    intro h
    rw [List.dropWhile_cons] at h
    by_cases hb : q b
    · simp only [hb, if_true] at h
      simp [ih h]
    · simp only [hb] at h
      simpa using h

theorem mem_joinSlash {a : Char} :
    ∀ {l : List (List Char)}, a ∈ joinSlash l → a = '/' ∨ ∃ c ∈ l, a ∈ c := by
  intro l
  induction l with
  | nil => intro h; simp [joinSlash] at h
  | cons c rest ih =>
    intro h
    cases rest with
    | nil =>
      simp only [joinSlash] at h
      exact Or.inr ⟨c, by simp, h⟩
    | cons r0 rr =>
      simp only [joinSlash, List.mem_append, List.mem_cons] at h
      rcases h with h | h | h
      · exact Or.inr ⟨c, by simp, h⟩
      · exact Or.inl h
      · rcases ih h with h1 | ⟨d, hd, ha⟩
        · exact Or.inl h1
        · exact Or.inr ⟨d, by simp [hd], ha⟩

theorem replaceBS_no_bs (s : List Char) : '\\' ∉ replaceBS s := by
  intro h
  simp only [replaceBS, List.mem_map] at h
  obtain ⟨c, _, hc⟩ := h
  by_cases h1 : c = '\\' <;> simp [h1] at hc

theorem lstripSlash_cons_slash (x : List Char) : lstripSlash ('/' :: x) = lstripSlash x := by
  simp [lstripSlash, List.dropWhile_cons]

theorem lstripSlash_cons_ne (a : Char) (x : List Char) (ha : a ≠ '/') :
    lstripSlash (a :: x) = a :: x := by
  simp [lstripSlash, List.dropWhile_cons, ha]

/-- With truthy initial slashes, the normpath component loop only ever holds
clean components (in particular no ".." survives): invariant of the fold. -/
theorem fold_npStep_true_good (comps : List (List Char)) (acc : List (List Char))
    (hacc : ∀ c ∈ acc, GoodComp c)
    (hcomps : ∀ c ∈ comps, '/' ∉ c ∧ '\\' ∉ c) :
    ∀ c ∈ comps.foldl (npStep true) acc, GoodComp c := by
  induction comps generalizing acc with
  | nil => simpa using hacc
  | cons comp rest ih =>
    have hcomp := hcomps comp (by simp)
    have hrest : ∀ c ∈ rest, '/' ∉ c ∧ '\\' ∉ c := fun c hc => hcomps c (by simp [hc])
    rw [List.foldl_cons]
    apply ih _ _ hrest
    intro c hc
    unfold npStep at hc
    by_cases h1 : comp = [] ∨ comp = ['.']
    · rw [if_pos h1] at hc
      exact hacc c hc
    · rw [if_neg h1] at hc
      by_cases h2 : comp ≠ ['.', '.'] ∨ ((true : Bool) = false ∧ acc = []) ∨
          (acc ≠ [] ∧ acc.getLast? = some ['.', '.'])
      · rw [if_pos h2] at hc
        simp only [List.mem_append, List.mem_singleton] at hc
        rcases hc with hc | hc
        · exact hacc c hc
        · subst hc
          push_neg at h1
          refine ⟨h1.1, h1.2, ?_, hcomp.1, hcomp.2⟩
          rcases h2 with h2 | ⟨h2, _⟩ | ⟨_, h2⟩
          · exact h2
          · exact absurd h2 (by simp)
          · have := hacc _ (mem_of_getLast?_eq h2)
            exact absurd rfl this.2.2.1
      · rw [if_neg h2] at hc
        by_cases h3 : acc ≠ []
        · rw [if_pos h3] at hc
          exact hacc c (mem_of_mem_dropLast hc)
        · rw [if_neg h3] at hc
          exact hacc c hc

/-- When every component is already clean, the normpath loop is the identity
(it just appends every component). -/
theorem fold_npStep_of_good (i : Bool) (comps : List (List Char))
    (h : ∀ c ∈ comps, GoodComp c) :
    ∀ acc, comps.foldl (npStep i) acc = acc ++ comps := by
  induction comps with
  | nil => intro acc; simp
  | cons comp rest ih =>
    intro acc
    have hcomp := h comp (by simp)
    have hrest : ∀ c ∈ rest, GoodComp c := fun c hc => h c (by simp [hc])
    rw [List.foldl_cons]
    have hstep : npStep i acc comp = acc ++ [comp] := by
      unfold npStep
      rw [if_neg (by push_neg; exact ⟨hcomp.1, hcomp.2.1⟩)]
      rw [if_pos (Or.inl hcomp.2.2.1)]
    rw [hstep, ih hrest, List.append_assoc]
    rfl

theorem normalizePath_no_bs (p : List Char) : '\\' ∉ normalizePath p := by
  unfold normalizePath
  by_cases hsp : p = [] ∨ p = str "." ∨ p = str "./" ∨ p = str "/"
  · rw [if_pos hsp]; decide
  · rw [if_neg hsp]
    by_cases hr : lstripSlash (replaceBS (normpath p)) = []
    · simp only [hr, if_pos rfl]; decide
    · simp only [hr, if_neg hr]
      intro hmem
      exact replaceBS_no_bs _ (mem_of_mem_dropWhile hmem)

/-- A non-root good path starts with a non-slash character and is
backslash-free. -/
theorem GoodPath_shape (z : List Char) (hz : GoodPath z) (hne : z ≠ str "/") :
    ∃ a w, z = a :: w ∧ a ≠ '/' ∧ '\\' ∉ z := by
  rcases hz with hz | hz
  · exact absurd hz hne
  · have hz0 : z = joinSlash (splitSlash z) := (joinSlash_splitSlash z).symm
    cases hsp : splitSlash z with
    | nil => exact absurd hsp (splitSlash_ne_nil z)
    | cons c1 rest =>
      have hc1 : GoodComp c1 := hz c1 (by rw [hsp]; simp)
      cases hc1vals : c1 with
      | nil => exact absurd hc1vals hc1.1
      | cons a as =>
        have hbs : '\\' ∉ z := by
          intro hmem
          rw [hz0, hsp] at hmem
          rcases mem_joinSlash hmem with h | ⟨c, hc, hac⟩
          · exact absurd h (by decide)
          · exact (hz c (by rw [hsp]; exact hc)).2.2.2.2 hac
        have ha : a ≠ '/' := by
          intro h
          exact hc1.2.2.2.1 (by rw [hc1vals, h]; simp)
        rw [hc1vals] at hsp
        cases rest with
        | nil =>
          refine ⟨a, as, ?_, ha, hbs⟩
          rw [hz0, hsp]
          simp [joinSlash]
        | cons r0 rr =>
          refine ⟨a, as ++ '/' :: joinSlash (r0 :: rr), ?_, ha, hbs⟩
          rw [hz0, hsp]
          simp [joinSlash]

/-- Good paths are fixed points of VirtualFS._normalize_path. -/
theorem GoodPath_fixed (z : List Char) (hz : GoodPath z) : normalizePath z = z := by
  rcases hz with hz | hz
  · subst hz; decide
  · have hnil : z ≠ [] := by
      intro h
      have := hz [] (by rw [h]; simp [splitSlash])
      exact this.1 rfl
    have hdot : z ≠ str "." := by
      intro h
      have := hz ['.'] (by rw [h]; simp [str, splitSlash])
      exact this.2.1 rfl
    have hdsl : z ≠ str "./" := by
      intro h
      have := hz [] (by rw [h]; simp [str, splitSlash])
      exact this.1 rfl
    have hsl : z ≠ str "/" := by
      intro h
      have := hz [] (by rw [h]; simp [str, splitSlash])
      exact this.1 rfl
    obtain ⟨a, w, hzw, ha, hbs⟩ := GoodPath_shape z (Or.inr hz) hsl
    have htake : z.take 1 ≠ ['/'] := by
      rw [hzw]; simp [ha]
    have hfold : (splitSlash z).foldl (npStep (decide (z.take 1 = ['/']))) [] = splitSlash z :=
      fold_npStep_of_good _ _ hz []
    have hnp : normpath z = z := by
      unfold normpath npSlashes npBody
      rw [if_neg hnil, if_neg htake, hfold]
      rw [List.nil_append, joinSlash_splitSlash]
      rw [if_neg hnil]
    unfold normalizePath
    rw [if_neg (by push_neg; exact ⟨hnil, hdot, hdsl, hsl⟩)]
    rw [hnp, replaceBS_id z hbs]
    rw [hzw, lstripSlash_cons_ne a w ha]
    simp

/-- Applying _normalize_path to an absolute backslash-free string yields a
good path. -/
theorem normalizePath_abs_good (p : List Char) (hp : p.take 1 = ['/']) (hbs : '\\' ∉ p) :
    GoodPath (normalizePath p) := by
  by_cases hsp : p = [] ∨ p = str "." ∨ p = str "./" ∨ p = str "/"
  · unfold normalizePath
    rw [if_pos hsp]
    exact Or.inl rfl
  · have hpne : p ≠ [] := fun h => hsp (Or.inl h)
    have hgood : ∀ c ∈ (splitSlash p).foldl (npStep true) [], GoodComp c := by
      apply fold_npStep_true_good _ _ (by simp)
      intro c hc
      refine ⟨splitSlash_no_slash p c hc, ?_⟩
      intro hm
      exact hbs (splitSlash_chars p c hc '\\' hm)
    have hdec : decide (p.take 1 = ['/']) = true := by simp [hp]
    set nc := (splitSlash p).foldl (npStep true) [] with hnc
    have hbody : npBody p = joinSlash nc := by
      unfold npBody
      rw [hdec]
    have hslashes : npSlashes p = ['/'] ∨ npSlashes p = ['/', '/'] := by
      unfold npSlashes
      rw [if_pos hp]
      by_cases h2 : p.take 2 = ['/', '/'] ∧ ¬ p.take 3 = ['/', '/', '/']
      · rw [if_pos h2]; exact Or.inr rfl
      · rw [if_neg h2]; exact Or.inl rfl
    have houtne : npSlashes p ++ npBody p ≠ [] := by
      rcases hslashes with h | h <;> simp [h]
    have hnp : normpath p = npSlashes p ++ npBody p := by
      unfold normpath
      rw [if_neg hpne, if_neg houtne]
    have hnobs : '\\' ∉ npSlashes p ++ npBody p := by
      intro hmem
      rw [List.mem_append] at hmem
      rcases hmem with hmem | hmem
      · rcases hslashes with h | h <;> rw [h] at hmem <;> simp at hmem
      · rw [hbody] at hmem
        rcases mem_joinSlash hmem with h | ⟨c, hc, hac⟩
        · exact absurd h (by decide)
        · exact (hgood c hc).2.2.2.2 hac
    have hlstrip : lstripSlash (npSlashes p ++ npBody p) = lstripSlash (npBody p) := by
      rcases hslashes with h | h <;> rw [h] <;>
        simp [List.cons_append, lstripSlash_cons_slash]
    unfold normalizePath
    rw [if_neg hsp, hnp, replaceBS_id _ hnobs, hlstrip]
    cases hncc : nc with
    | nil =>
      rw [hbody, hncc]
      simp only [joinSlash, lstripSlash, List.dropWhile_nil]
      simp only [if_pos]
      exact Or.inl (by simp)
    | cons c1 rest =>
      have hc1 : GoodComp c1 := by
        apply hgood; rw [hncc]; simp
      have hsplit : splitSlash (joinSlash nc) = nc := by
        apply splitSlash_joinSlash
        · rw [hncc]; simp
        · intro c hc
          exact (hgood c hc).2.2.2.1
      cases hc1vals : c1 with
      | nil => exact absurd hc1vals hc1.1
      | cons a as =>
        have ha : a ≠ '/' := by
          intro h
          exact hc1.2.2.2.1 (by rw [hc1vals, h]; simp)
        have hjoin : ∃ w, joinSlash nc = a :: w := by
          rw [hncc, hc1vals]
          cases rest with
          | nil => exact ⟨as, by simp [joinSlash]⟩
          | cons r0 rr => exact ⟨as ++ '/' :: joinSlash (r0 :: rr), by simp [joinSlash]⟩
        obtain ⟨w, hw⟩ := hjoin
        rw [hbody, hw, lstripSlash_cons_ne a w ha]
        rw [if_neg (by simp)]
        right
        rw [← hw, hsplit]
        exact hgood

/-! ### Congruence along preserved state fields -/

theorem getcwdE_congr (S S' : VFSState) (h : S'.cwd = S.cwd) : getcwdE S' = getcwdE S := by
  unfold getcwdE
  rw [h]

theorem resolvePathE_congr (S S' : VFSState) (h : S'.cwd = S.cwd) (p : List Char) :
    resolvePathE S' p = resolvePathE S p := by
  unfold resolvePathE
  rw [getcwdE_congr S S' h]

theorem encodePathE_congr (S S' : VFSState) (h : S'.cwd = S.cwd) (p : List Char) :
    encodePathE S' p = encodePathE S p := by
  unfold encodePathE
  rw [resolvePathE_congr S S' h]

theorem isfileE_congr (S S' : VFSState) (hf : S'.files = S.files) (hc : S'.cwd = S.cwd)
    (p : List Char) : isfileE S' p = isfileE S p := by
  unfold isfileE
  rw [encodePathE_congr S S' hc, hf]

theorem resolvePathE_no_bs (S : VFSState) (p : List Char) : '\\' ∉ resolvePathE S p := by
  unfold resolvePathE
  split
  · exact normalizePath_no_bs _
  · exact normalizePath_no_bs _

theorem stripSlash_mem {a : Char} {s : List Char} (h : a ∈ stripSlash s) : a ∈ s := by
  unfold stripSlash at h
  rw [List.mem_reverse] at h
  have h2 := mem_of_mem_dropWhile h
  rw [List.mem_reverse] at h2
  exact mem_of_mem_dropWhile h2

/-! ### Effects of mkdir and makedirs on the state -/

theorem mkdirE_state (S : VFSState) (p : List Char) (now : Nat) (eok : Bool) :
    (mkdirE S p now eok).1.files = S.files ∧ (mkdirE S p now eok).1.cwd = S.cwd ∧
    ∀ q, lookupA (mkdirE S p now eok).1.metadata q = lookupA S.metadata q ∨
      lookupA (mkdirE S p now eok).1.metadata q = some ⟨0, now, now, true⟩ := by
  unfold mkdirE
  split
  · exact ⟨rfl, rfl, fun q => Or.inl rfl⟩
  · split
    · exact ⟨rfl, rfl, fun q => Or.inl rfl⟩
    · split
      · split
        · exact ⟨rfl, rfl, fun q => Or.inl rfl⟩
        · exact ⟨rfl, rfl, fun q => Or.inl rfl⟩
      · refine ⟨rfl, rfl, fun q => ?_⟩
        by_cases hq : normalizePath (resolvePathE S p) = q
        · subst hq
          right
          exact lookupA_setA_self _ _ _
        · left
          exact lookupA_setA_ne _ _ _ _ hq

/-- When the backing mapping already holds a file under the encoded key of
m, mkdir on an absolute backslash-free path never disturbs the metadata
entry at m: the only insertion site is guarded by an isfile check that
would have to fail at m itself. -/
theorem mkdirE_meta_file (S : VFSState) (p : List Char) (now : Nat) (eok : Bool)
    (m : List Char) (habs : p.take 1 = ['/']) (hbs : '\\' ∉ p)
    (hm : (lookupA S.files (encodePathE S m)).isSome = true) :
    lookupA (mkdirE S p now eok).1.metadata m = lookupA S.metadata m := by
  unfold mkdirE
  split
  · rfl
  · rename_i hguard1
    split
    · rfl
    · rename_i hnotfile
      split
      · split
        · rfl
        · rfl
      · have hres : resolvePathE S p = normalizePath p := by
          unfold resolvePathE
          rw [if_pos habs]
        have hfix : normalizePath (resolvePathE S p) = resolvePathE S p := by
          rw [hres]
          exact GoodPath_fixed _ (normalizePath_abs_good p habs hbs)
        by_cases hqm : normalizePath (resolvePathE S p) = m
        · exfalso
          apply hnotfile
          have hm2 : m = resolvePathE S p := by rw [← hqm, hfix]
          unfold isfileE
          rw [← hm2]
          exact hm
        · exact lookupA_setA_ne _ _ _ _ hqm

theorem makedirsGo_effects (now : Nat) :
    ∀ (todo done : List (List Char)) (S : VFSState),
      (makedirsGo now S done todo).1.files = S.files ∧
      (makedirsGo now S done todo).1.cwd = S.cwd ∧
      ∀ q, lookupA (makedirsGo now S done todo).1.metadata q = lookupA S.metadata q ∨
        lookupA (makedirsGo now S done todo).1.metadata q = some ⟨0, now, now, true⟩ := by
  intro todo
  induction todo with
  | nil => exact fun done S => ⟨rfl, rfl, fun q => Or.inl rfl⟩
  | cons c rest ih =>
    intro done S
    simp only [makedirsGo]
    split
    · exact ⟨rfl, rfl, fun q => Or.inl rfl⟩
    · split
      · rcases hmk : mkdirE S ('/' :: joinSlash (done ++ [c])) now true with ⟨S', r⟩
        have hms := mkdirE_state S ('/' :: joinSlash (done ++ [c])) now true
        rw [hmk] at hms
        cases r with
        | ok u =>
          have hrec := ih (done ++ [c]) S'
          refine ⟨by rw [hrec.1, hms.1], by rw [hrec.2.1, hms.2.1], fun q => ?_⟩
          rcases hrec.2.2 q with h | h
          · rcases hms.2.2 q with h2 | h2
            · exact Or.inl (by rw [h, h2])
            · exact Or.inr (by rw [h, h2])
          · exact Or.inr h
        | error e =>
          exact ⟨hms.1, hms.2.1, hms.2.2⟩
      · exact ih (done ++ [c]) S

theorem makedirsGo_meta_file (now : Nat) (m : List Char) :
    ∀ (todo done : List (List Char)) (S : VFSState),
      (∀ d ∈ done ++ todo, '\\' ∉ d) →
      (lookupA S.files (encodePathE S m)).isSome = true →
      lookupA (makedirsGo now S done todo).1.metadata m = lookupA S.metadata m := by
  intro todo
  induction todo with
  | nil => exact fun done S _ _ => rfl
  | cons c rest ih =>
    intro done S hbs hm
    simp only [makedirsGo]
    split
    · rfl
    · have hdbs : '\\' ∉ '/' :: joinSlash (done ++ [c]) := by
        intro hmem
        rcases List.mem_cons.mp hmem with h | h
        · exact absurd h (by decide)
        · rcases mem_joinSlash h with h2 | ⟨d, hd, had⟩
          · exact absurd h2 (by decide)
          · exact hbs d (by
              rcases List.mem_append.mp hd with h3 | h3
              · exact List.mem_append.mpr (Or.inl h3)
              · simp only [List.mem_singleton] at h3
                subst h3
                exact List.mem_append.mpr (Or.inr (by simp))) had
      split
      · rcases hmk : mkdirE S ('/' :: joinSlash (done ++ [c])) now true with ⟨S', r⟩
        have hms := mkdirE_state S ('/' :: joinSlash (done ++ [c])) now true
        have hmf := mkdirE_meta_file S ('/' :: joinSlash (done ++ [c])) now true m
          (by rfl) hdbs hm
        rw [hmk] at hms hmf
        cases r with
        | ok u =>
          have hm2 : (lookupA S'.files (encodePathE S' m)).isSome = true := by
            rw [hms.1, encodePathE_congr S S' hms.2.1]
            exact hm
          have hbs2 : ∀ d ∈ (done ++ [c]) ++ rest, '\\' ∉ d := by
            intro d hd
            apply hbs d
            rcases List.mem_append.mp hd with h3 | h3
            · rcases List.mem_append.mp h3 with h4 | h4
              · exact List.mem_append.mpr (Or.inl h4)
              · simp only [List.mem_singleton] at h4
                subst h4
                exact List.mem_append.mpr (Or.inr (by simp))
            · exact List.mem_append.mpr (Or.inr (by simp [h3]))
          rw [ih (done ++ [c]) S' hbs2 hm2, hmf]
        | error e => exact hmf
      · have hbs2 : ∀ d ∈ (done ++ [c]) ++ rest, '\\' ∉ d := by
          intro d hd
          apply hbs d
          rcases List.mem_append.mp hd with h3 | h3
          · rcases List.mem_append.mp h3 with h4 | h4
            · exact List.mem_append.mpr (Or.inl h4)
            · simp only [List.mem_singleton] at h4
              subst h4
              exact List.mem_append.mpr (Or.inr (by simp))
          · exact List.mem_append.mpr (Or.inr (by simp [h3]))
        exact ih (done ++ [c]) S hbs2 hm

/-! ### Dissection of VirtualFS.write -/

theorem mkdirE_err (S : VFSState) (p : List Char) (now : Nat) (eok : Bool) (e : Err)
    (h : (mkdirE S p now eok).2 = .error e) : e = .notFound ∨ e = .dupFile := by
  unfold mkdirE at h
  split at h
  · simp only at h
    exact Or.inl (Except.error.inj h).symm
  · split at h
    · simp only at h
      exact Or.inr (Except.error.inj h).symm
    · split at h
      · split at h <;> simp only at h
        · cases h
        · exact Or.inr (Except.error.inj h).symm
      · simp only at h
        cases h

theorem makedirsGo_err (now : Nat) :
    ∀ (todo done : List (List Char)) (S : VFSState) (e : Err),
      (makedirsGo now S done todo).2 = .error e → e = .notFound ∨ e = .dupFile := by
  intro todo
  induction todo with
  | nil =>
    intro done S e h
    simp only [makedirsGo] at h
    cases h
  | cons c rest ih =>
    intro done S e h
    simp only [makedirsGo] at h
    split at h
    · simp only at h
      exact Or.inr (Except.error.inj h).symm
    · split at h
      · rcases hmk : mkdirE S ('/' :: joinSlash (done ++ [c])) now true with ⟨S', r⟩
        rw [hmk] at h
        cases r with
        | ok u => exact ih (done ++ [c]) S' e h
        | error e2 =>
          simp only at h
          have he : e2 = e := Except.error.inj h
          subst he
          exact mkdirE_err S _ now true e2 (by rw [hmk])
      · exact ih (done ++ [c]) S e h

theorem writeParent_parts (S : VFSState) (p : List Char) (now : Nat) :
    (writeParent S p now).1.files = S.files ∧ (writeParent S p now).1.cwd = S.cwd ∧
    ∀ q, lookupA (writeParent S p now).1.metadata q = lookupA S.metadata q ∨
      lookupA (writeParent S p now).1.metadata q = some ⟨0, now, now, true⟩ := by
  unfold writeParent
  split
  · unfold makedirsE
    exact makedirsGo_effects now _ [] S
  · exact ⟨rfl, rfl, fun q => Or.inl rfl⟩

theorem writeParent_err (S : VFSState) (p : List Char) (now : Nat) (e : Err)
    (h : (writeParent S p now).2 = .error e) : e = .notFound ∨ e = .dupFile := by
  unfold writeParent at h
  split at h
  · unfold makedirsE at h
    exact makedirsGo_err now _ [] S e h
  · cases h

theorem writeParent_meta_file (S : VFSState) (p : List Char) (now : Nat)
    (hm : (lookupA S.files (encodePathE S p)).isSome = true) :
    lookupA (writeParent S p now).1.metadata p = lookupA S.metadata p := by
  unfold writeParent
  split
  · unfold makedirsE
    apply makedirsGo_meta_file now p _ [] S _ hm
    intro d hd hmem
    simp only [List.nil_append] at hd
    exact resolvePathE_no_bs S _ (stripSlash_mem (splitSlash_chars _ d hd '\\' hmem))
  · rfl

theorem writeContent_err (S1 : VFSState) (p : List Char) (c : List Nat) (mode : List Char)
    (e : Err) (h : writeContent S1 p c mode = .error e) : e = .invalidArg := by
  unfold writeContent at h
  split at h
  · split at h <;> cases h
  · split at h
    · cases h
    · exact (Except.error.inj h).symm

theorem checkSizeLimitE_err (mx : Option Nat) (S1 : VFSState) (p : List Char) (n : Nat)
    (e : Err) (h : checkSizeLimitE mx S1 p n = .error e) : e = .sizeLimit := by
  unfold checkSizeLimitE at h
  split at h
  · cases h
  · split at h
    · exact (Except.error.inj h).symm
    · cases h

theorem writeE_ok_destruct (mx : Option Nat) (S : VFSState) (p : List Char) (c : List Nat)
    (t : Nat) (mode : List Char) (S' : VFSState)
    (h : writeE mx S p c t mode = (S', .ok ())) :
    ∃ S1 c2, writeParent S p t = (S1, .ok ()) ∧ writeContent S1 p c mode = .ok c2 ∧
      checkSizeLimitE mx S1 p c2.length = .ok () ∧ S' = writeCommit S1 p c2 t := by
  unfold writeE at h
  rcases hwp : writeParent S p t with ⟨S1, r1⟩
  rw [hwp] at h
  cases r1 with
  | error e => simp at h
  | ok u =>
    cases u
    simp only at h
    cases hwc : writeContent S1 p c mode with
    | error e2 => rw [hwc] at h; simp at h
    | ok c2 =>
      rw [hwc] at h
      simp only at h
      cases hcs : checkSizeLimitE mx S1 p c2.length with
      | error e3 => rw [hcs] at h; simp at h
      | ok u2 =>
        cases u2
        rw [hcs] at h
        simp only [Prod.mk.injEq] at h
        exact ⟨S1, c2, rfl, hwc, hcs, h.1.symm⟩

theorem writeE_sizeLimit_destruct (mx : Option Nat) (S : VFSState) (p : List Char)
    (c : List Nat) (t : Nat) (mode : List Char) (S' : VFSState)
    (h : writeE mx S p c t mode = (S', .error .sizeLimit)) :
    (writeParent S p t).1 = S' := by
  unfold writeE at h
  rcases hwp : writeParent S p t with ⟨S1, r1⟩
  rw [hwp] at h
  cases r1 with
  | error e =>
    simp only [Prod.mk.injEq] at h
    have he : e = .sizeLimit := Except.error.inj h.2
    subst he
    rcases writeParent_err S p t _ (by rw [hwp]) with h2 | h2 <;> cases h2
  | ok u =>
    cases u
    simp only at h
    cases hwc : writeContent S1 p c mode with
    | error e2 =>
      rw [hwc] at h
      simp only [Prod.mk.injEq] at h
      have he : e2 = .sizeLimit := Except.error.inj h.2
      have := writeContent_err S1 p c mode e2 hwc
      rw [he] at this
      cases this
    | ok c2 =>
      rw [hwc] at h
      simp only at h
      cases hcs : checkSizeLimitE mx S1 p c2.length with
      | error e3 =>
        rw [hcs] at h
        simp only [Prod.mk.injEq] at h
        exact h.1
      | ok u2 =>
        cases u2
        rw [hcs] at h
        simp at h

theorem updateKey_of_norm (p : List Char) (b : Bool) (hnorm : normalizePath p = p) :
    updateKey p b = p := by
  cases b <;> simp [updateKey, hnorm]

theorem updateFileMetadataE_parts (S : VFSState) (p : List Char) (size : Nat)
    (is_new : Bool) (now : Nat) :
    ∃ cr, updateFileMetadataE S p size is_new now =
        ⟨S.files, setA S.metadata (updateKey p is_new) ⟨size, cr, now, false⟩, S.cwd⟩ ∧
      (is_new = false → ∀ m0, lookupA S.metadata p = some m0 → cr = m0.created_at) := by
  unfold updateFileMetadataE
  cases hl : lookupA S.metadata (updateKey p is_new) with
  | none =>
    refine ⟨now, rfl, fun hin m0 hm0 => ?_⟩
    rw [hin] at hl
    simp only [updateKey, if_neg (by simp : ¬ False), Bool.false_eq_true, if_false] at hl
    rw [hm0] at hl
    cases hl
  | some m =>
    cases is_new with
    | true => exact ⟨now, rfl, fun hin => by cases hin⟩
    | false =>
      refine ⟨m.created_at, rfl, fun _ m0 hm0 => ?_⟩
      simp only [updateKey, Bool.false_eq_true, if_false] at hl
      rw [hm0] at hl
      rw [Option.some.inj hl]

/-- After a successful plain write at clock t the file reads back exactly,
its stat size is the byte length and its modified stamp is t; the created
stamp agrees with the pre-write metadata entry whenever the file already
existed. -/
theorem writeE_ok_stat (mx : Option Nat) (S : VFSState) (p : List Char) (c : List Nat)
    (t : Nat) (S' : VFSState) (hnorm : normalizePath p = p)
    (hw : writeE mx S p c t (str "w") = (S', .ok ())) :
    readE S' p = .ok c ∧
    ∃ cr, (∀ now, statE S' p now = .ok ⟨c.length, cr, t, false⟩) ∧
      ((lookupA S.files (encodePathE S p)).isSome = true →
        ∀ m0, lookupA S.metadata p = some m0 → cr = m0.created_at) := by
  obtain ⟨S1, c2, hwp, hwc, hcs, hS'⟩ := writeE_ok_destruct mx S p c t (str "w") S' hw
  have hc2 : c2 = c := by
    unfold writeContent at hwc
    rw [if_neg (by decide : ¬ (str "w" = str "a")), if_pos rfl] at hwc
    exact (Except.ok.inj hwc).symm
  subst hc2
  have hP := writeParent_parts S p t
  rw [hwp] at hP
  simp only at hP
  obtain ⟨hf1, hc1, _⟩ := hP
  have hkey : encodePathE S1 p = encodePathE S p := encodePathE_congr S S1 hc1 p
  obtain ⟨cr, hup, hcrf⟩ :=
    updateFileMetadataE_parts ⟨setA S1.files (encodePathE S1 p) c2, S1.metadata, S1.cwd⟩
      p c2.length (lookupA S1.files (encodePathE S1 p)).isNone t
  have hS'2 : S' = ⟨setA S1.files (encodePathE S1 p) c2,
      setA S1.metadata (updateKey p (lookupA S1.files (encodePathE S1 p)).isNone)
        ⟨c2.length, cr, t, false⟩, S1.cwd⟩ := by
    rw [hS']
    unfold writeCommit
    exact hup
  have hcwd' : S'.cwd = S1.cwd := by rw [hS'2]
  have hkey' : encodePathE S' p = encodePathE S1 p := encodePathE_congr S1 S' hcwd' p
  have hread : readE S' p = .ok c2 := by
    unfold readE
    rw [hkey', hS'2]
    simp only
    rw [lookupA_setA_self]
  have hisfile : isfileE S' p = true := by
    unfold isfileE
    rw [hkey', hS'2]
    simp only
    rw [lookupA_setA_self]
    rfl
  have hukey : updateKey p (lookupA S1.files (encodePathE S1 p)).isNone = p :=
    updateKey_of_norm p _ hnorm
  have hstat : ∀ now, statE S' p now = .ok ⟨c2.length, cr, t, false⟩ := by
    intro now
    unfold statE
    rw [if_pos hisfile, hnorm, hS'2]
    simp only
    rw [hukey, lookupA_setA_self]
  refine ⟨hread, cr, hstat, fun hm m0 hm0 => ?_⟩
  have hnew : (lookupA S1.files (encodePathE S1 p)).isNone = false := by
    rw [hkey, hf1]
    cases hx : lookupA S.files (encodePathE S p) with
    | none => rw [hx] at hm; simp at hm
    | some v => rfl
  have hmeta1 : lookupA S1.metadata p = lookupA S.metadata p := by
    have h2 := writeParent_meta_file S p t hm
    rw [hwp] at h2
    exact h2
  apply hcrf hnew m0
  simp only
  rw [hmeta1, hm0]

/-! ### Substitution lemmas for the HOME rewrites -/

theorem isPre_append {γ : Type} [DecidableEq γ] (l t : List γ) : isPre l (l ++ t) = true := by
  induction l with
  | nil => rfl
  | cons a as ih => simp [isPre, ih]

theorem subLitGo_no_dollar (p' repl : List Char) (fuel : Nat) :
    ∀ s, '$' ∉ s → subLitGo ('$' :: p') repl fuel s = s := by
  induction fuel with
  | zero => intro s _; cases s <;> rfl
  | succ n ih =>
    intro s h
    cases s with
    | nil => rfl
    | cons a t =>
      have ha : ¬ (('$' : Char) = a) := fun hh => by
        rw [hh] at h
        exact h (List.mem_cons_self a t)
      have hpre : isPre ('$' :: p') (a :: t) = false := by
        simp [isPre, ha]
      simp only [subLitGo]
      rw [if_neg (by simp [hpre]), ih t (fun hm => h (List.mem_cons_of_mem a hm))]

theorem subHomeBGo_no_dollar (fuel : Nat) :
    ∀ s, '$' ∉ s → subHomeBGo fuel s = s := by
  induction fuel with
  | zero => intro s _; cases s <;> rfl
  | succ n ih =>
    intro s h
    cases s with
    | nil => rfl
    | cons a t =>
      have ha : ¬ (('$' : Char) = a) := fun hh => by
        rw [hh] at h
        exact h (List.mem_cons_self a t)
      have hpre : isPre (str "$HOME") (a :: t) = false := by
        have he : isPre (str "$HOME") (a :: t) =
            (decide (('$' : Char) = a) && isPre (str "HOME") t) := rfl
        rw [he, decide_eq_false ha, Bool.false_and]
      simp only [subHomeBGo]
      rw [if_neg (by simp [hpre]), ih t (fun hm => h (List.mem_cons_of_mem a hm))]

theorem subHomeB_no_dollar (s : List Char) (h : '$' ∉ s) : subHomeB s = s :=
  subHomeBGo_no_dollar s.length s h

theorem subLit_no_dollar (p' repl s : List Char) (h : '$' ∉ s) :
    subLit ('$' :: p') repl s = s :=
  subLitGo_no_dollar p' repl s.length s h

theorem subLit_cons_hit (p' repl rest : List Char) (hrest : '$' ∉ rest) :
    subLit ('$' :: p') repl (('$' :: p') ++ rest) = repl ++ rest := by
  show subLitGo ('$' :: p') repl ((p' ++ rest).length + 1) ('$' :: (p' ++ rest)) = repl ++ rest
  simp only [subLitGo]
  rw [if_pos ⟨isPre_append ('$' :: p') rest, by simp⟩]
  have hd : ('$' :: (p' ++ rest)).drop (('$' :: p').length) = rest := by
    show (p' ++ rest).drop p'.length = rest
    exact List.drop_left p' rest
  rw [hd, subLitGo_no_dollar p' repl (p' ++ rest).length rest hrest]

theorem subLit_cons_miss (pat repl : List Char) (a : Char) (t : List Char)
    (hpre : isPre pat (a :: t) = false) (hp : ∃ q, pat = '$' :: q) (ht : '$' ∉ t) :
    subLit pat repl (a :: t) = a :: t := by
  show subLitGo pat repl (t.length + 1) (a :: t) = a :: t
  simp only [subLitGo]
  rw [if_neg (by simp [hpre])]
  obtain ⟨q, rfl⟩ := hp
  rw [subLitGo_no_dollar q repl t.length t ht]

/-! ### Normal forms of slash-joined clean component lists -/

theorem take_append_succ {α : Type} (l : List α) (c : α) (r : List α) :
    (l ++ c :: r).take (l.length + 1) = l ++ [c] := by
  induction l with
  | nil => simp
  | cons a t ih => simp [ih]

theorem good_join_head (l : List (List Char)) (hne : l ≠ [])
    (hg : ∀ x ∈ l, GoodComp x) : ∃ a w, joinSlash l = a :: w ∧ a ≠ '/' := by
  cases l with
  | nil => exact absurd rfl hne
  | cons c rest =>
    have hc := hg c (by simp)
    cases hcc : c with
    | nil => exact absurd hcc hc.1
    | cons a w' =>
      have ha : a ≠ '/' := fun h => hc.2.2.2.1 (by rw [hcc, h]; simp)
      cases rest with
      | nil => exact ⟨a, w', rfl, ha⟩
      | cons c2 r2 => exact ⟨a, w' ++ '/' :: joinSlash (c2 :: r2), rfl, ha⟩

theorem good_join_rev (l : List (List Char)) (hne : l ≠ [])
    (hg : ∀ x ∈ l, GoodComp x) : ∃ b w, (joinSlash l).reverse = b :: w ∧ b ≠ '/' := by
  induction l with
  | nil => exact absurd rfl hne
  | cons c rest ih =>
    cases rest with
    | nil =>
      have hc := hg c (by simp)
      cases hcr : c.reverse with
      | nil => exact absurd (List.reverse_eq_nil_iff.mp hcr) hc.1
      | cons b w =>
        have hb : b ∈ c := by
          rw [← List.mem_reverse, hcr]
          simp
        exact ⟨b, w, by rw [show joinSlash [c] = c from rfl, hcr],
          fun h => hc.2.2.2.1 (h ▸ hb)⟩
    | cons c2 r2 =>
      obtain ⟨b, w, hbw, hb⟩ := ih (by simp) (fun x hx => hg x (by simp [hx]))
      refine ⟨b, w ++ '/' :: c.reverse, ?_, hb⟩
      rw [show joinSlash (c :: c2 :: r2) = c ++ '/' :: joinSlash (c2 :: r2) from rfl]
      rw [List.reverse_append, List.reverse_cons, hbw]
      simp

theorem good_join_ne_nil (l : List (List Char)) (hne : l ≠ [])
    (hg : ∀ x ∈ l, GoodComp x) : joinSlash l ≠ [] := by
  obtain ⟨a, w, hj, _⟩ := good_join_head l hne hg
  rw [hj]
  simp

theorem good_join_ne_root (l : List (List Char)) (hne : l ≠ [])
    (hg : ∀ x ∈ l, GoodComp x) : joinSlash l ≠ str "/" := by
  obtain ⟨a, w, hj, ha⟩ := good_join_head l hne hg
  rw [hj, show str "/" = ['/'] from rfl]
  intro h
  injection h with h1 _
  exact ha h1

theorem splitSlash_good_join (l : List (List Char)) (hne : l ≠ [])
    (hg : ∀ x ∈ l, GoodComp x) : splitSlash (joinSlash l) = l :=
  splitSlash_joinSlash l hne (fun c hc => (hg c hc).2.2.2.1)

theorem GoodPath_join (l : List (List Char)) (hne : l ≠ [])
    (hg : ∀ x ∈ l, GoodComp x) : GoodPath (joinSlash l) := by
  refine Or.inr ?_
  rw [splitSlash_good_join l hne hg]
  exact hg

theorem stripSlash_good_join (l : List (List Char)) (hne : l ≠ [])
    (hg : ∀ x ∈ l, GoodComp x) : stripSlash (joinSlash l) = joinSlash l := by
  obtain ⟨a, w, hj, ha⟩ := good_join_head l hne hg
  obtain ⟨b, v, hbv, hb⟩ := good_join_rev l hne hg
  unfold stripSlash
  rw [hj, lstripSlash_cons_ne a w ha, ← hj, hbv, List.dropWhile_cons,
    if_neg (by simp [hb]), ← hbv, List.reverse_reverse]

theorem good_join_no_bs (l : List (List Char)) (hg : ∀ x ∈ l, GoodComp x) :
    '\\' ∉ joinSlash l := by
  intro h
  rcases mem_joinSlash h with h2 | ⟨x, hx, hmem⟩
  · exact absurd h2 (by decide)
  · exact (hg x hx).2.2.2.2 hmem

theorem normalizePath_abs_join (l : List (List Char)) (hne : l ≠ [])
    (hg : ∀ x ∈ l, GoodComp x) : normalizePath ('/' :: joinSlash l) = joinSlash l := by
  obtain ⟨a, w, hj, ha⟩ := good_join_head l hne hg
  have hjn : joinSlash l ≠ [] := good_join_ne_nil l hne hg
  have hc1 : ¬ ('/' :: joinSlash l = [] ∨ '/' :: joinSlash l = str "." ∨
      '/' :: joinSlash l = str "./" ∨ '/' :: joinSlash l = str "/") := by
    rw [hj, show str "." = ['.'] from rfl, show str "./" = ['.', '/'] from rfl,
      show str "/" = ['/'] from rfl]
    rintro (h | h | h | h)
    · cases h
    · injection h with h1 _
      exact absurd h1 (by decide)
    · injection h with h1 _
      exact absurd h1 (by decide)
    · injection h with _ h2
      cases h2
  have hnp : normpath ('/' :: joinSlash l) = '/' :: joinSlash l := by
    unfold normpath
    have hsl : npSlashes ('/' :: joinSlash l) = ['/'] := by
      unfold npSlashes
      rw [if_pos (by simp)]
      rw [if_neg]
      rw [hj]
      rintro ⟨h2, _⟩
      simp [List.take] at h2
      exact ha h2
    have hbody : npBody ('/' :: joinSlash l) = joinSlash l := by
      unfold npBody
      have hsp : splitSlash ('/' :: joinSlash l) = [] :: l := by
        rw [show splitSlash ('/' :: joinSlash l) = [] :: splitSlash (joinSlash l)
          from by simp [splitSlash]]
        rw [splitSlash_good_join l hne hg]
      rw [hsp, show decide (('/' :: joinSlash l).take 1 = ['/']) = true from by simp]
      rw [List.foldl_cons, show npStep true [] [] = [] from by simp [npStep]]
      rw [fold_npStep_of_good true l hg []]
      simp
    rw [if_neg (by simp), hsl, hbody, if_neg (by simp)]
    rfl
  unfold normalizePath
  rw [if_neg hc1, hnp,
    replaceBS_id _ (by
      intro hm
      rcases List.mem_cons.mp hm with h | h
      · exact absurd h (by decide)
      · exact good_join_no_bs l hg h),
    lstripSlash_cons_slash, hj, lstripSlash_cons_ne a w ha, ← hj, if_neg hjn]

theorem normalizePath_abs2_join (l : List (List Char)) (hne : l ≠ [])
    (hg : ∀ x ∈ l, GoodComp x) :
    normalizePath ('/' :: '/' :: joinSlash l) = joinSlash l := by
  obtain ⟨a, w, hj, ha⟩ := good_join_head l hne hg
  have hjn : joinSlash l ≠ [] := good_join_ne_nil l hne hg
  have hc1 : ¬ ('/' :: '/' :: joinSlash l = [] ∨ '/' :: '/' :: joinSlash l = str "." ∨
      '/' :: '/' :: joinSlash l = str "./" ∨ '/' :: '/' :: joinSlash l = str "/") := by
    rw [show str "." = ['.'] from rfl, show str "./" = ['.', '/'] from rfl,
      show str "/" = ['/'] from rfl]
    rintro (h | h | h | h)
    · cases h
    · injection h with h1 _
      exact absurd h1 (by decide)
    · injection h with h1 _
      exact absurd h1 (by decide)
    · injection h with _ h2
      cases h2
  have hnp : normpath ('/' :: '/' :: joinSlash l) = '/' :: '/' :: joinSlash l := by
    unfold normpath
    have hsl : npSlashes ('/' :: '/' :: joinSlash l) = ['/', '/'] := by
      unfold npSlashes
      rw [if_pos (by simp)]
      rw [if_pos]
      refine ⟨by simp, ?_⟩
      rw [hj]
      intro h3
      simp [List.take] at h3
      exact ha h3
    have hbody : npBody ('/' :: '/' :: joinSlash l) = joinSlash l := by
      unfold npBody
      have hsp : splitSlash ('/' :: '/' :: joinSlash l) = [] :: [] :: l := by
        rw [show splitSlash ('/' :: '/' :: joinSlash l) =
          [] :: [] :: splitSlash (joinSlash l) from by simp [splitSlash]]
        rw [splitSlash_good_join l hne hg]
      rw [hsp, show decide (('/' :: '/' :: joinSlash l).take 1 = ['/']) = true from by simp]
      rw [List.foldl_cons, show npStep true [] [] = [] from by simp [npStep]]
      rw [List.foldl_cons, show npStep true [] [] = [] from by simp [npStep]]
      rw [fold_npStep_of_good true l hg []]
      simp
    rw [if_neg (by simp), hsl, hbody, if_neg (by simp)]
    rfl
  unfold normalizePath
  rw [if_neg hc1, hnp,
    replaceBS_id _ (by
      intro hm
      rcases List.mem_cons.mp hm with h | h
      · exact absurd h (by decide)
      · rcases List.mem_cons.mp h with h2 | h2
        · exact absurd h2 (by decide)
        · exact good_join_no_bs l hg h2),
    lstripSlash_cons_slash, lstripSlash_cons_slash, hj, lstripSlash_cons_ne a w ha,
    ← hj, if_neg hjn]

/-! ### Resolution of clean joined paths and directory-test lemmas -/

theorem resolvePathE_abs_join (S : VFSState) (l : List (List Char)) (hne : l ≠ [])
    (hg : ∀ x ∈ l, GoodComp x) :
    resolvePathE S ('/' :: joinSlash l) = joinSlash l := by
  unfold resolvePathE
  rw [if_pos (by simp)]
  exact normalizePath_abs_join l hne hg

theorem resolvePathE_rel_join (S : VFSState) (l : List (List Char))
    (hcwd : getcwdE S = str "/") (hne : l ≠ []) (hg : ∀ x ∈ l, GoodComp x) :
    resolvePathE S (joinSlash l) = joinSlash l := by
  obtain ⟨a, w, hj, ha⟩ := good_join_head l hne hg
  unfold resolvePathE
  rw [if_neg (by rw [hj]; simp [List.take, ha])]
  rw [hcwd, show str "/" ++ '/' :: joinSlash l = '/' :: '/' :: joinSlash l from rfl]
  exact normalizePath_abs2_join l hne hg

theorem norm_resolve_abs_join (S : VFSState) (l : List (List Char)) (hne : l ≠ [])
    (hg : ∀ x ∈ l, GoodComp x) :
    normalizePath (resolvePathE S ('/' :: joinSlash l)) = joinSlash l := by
  rw [resolvePathE_abs_join S l hne hg]
  exact GoodPath_fixed _ (GoodPath_join l hne hg)

theorem norm_resolve_rel_join (S : VFSState) (l : List (List Char))
    (hcwd : getcwdE S = str "/") (hne : l ≠ []) (hg : ∀ x ∈ l, GoodComp x) :
    normalizePath (resolvePathE S (joinSlash l)) = joinSlash l := by
  rw [resolvePathE_rel_join S l hcwd hne hg]
  exact GoodPath_fixed _ (GoodPath_join l hne hg)

theorem isdirE_norm_congr (S : VFSState) (p1 p2 : List Char)
    (h : normalizePath (resolvePathE S p1) = normalizePath (resolvePathE S p2)) :
    isdirE S p1 = isdirE S p2 := by
  unfold isdirE
  rw [h]

theorem isfileE_norm_congr (S : VFSState) (p1 p2 : List Char)
    (h : normalizePath (resolvePathE S p1) = normalizePath (resolvePathE S p2)) :
    isfileE S p1 = isfileE S p2 := by
  unfold isfileE encodePathE
  rw [h]

theorem isdirE_of_meta (S : VFSState) (p : List Char) (m : FileMetadata)
    (hl : lookupA S.metadata (normalizePath (resolvePathE S p)) = some m)
    (hm : m.is_dir = true) : isdirE S p = true := by
  unfold isdirE
  split
  · rfl
  · rw [hl]
    simp [hm]

theorem isdirE_root (S : VFSState) : isdirE S ('/' :: joinSlash []) = true := rfl

theorem mkdirE_create (S : VFSState) (done : List (List Char)) (c : List Char) (now : Nat)
    (hcwd : getcwdE S = str "/")
    (hg : ∀ x ∈ done ++ [c], GoodComp x)
    (hdone : isdirE S ('/' :: joinSlash done) = true)
    (hfc : isfileE S ('/' :: joinSlash (done ++ [c])) = false)
    (hnd : isdirE S ('/' :: joinSlash (done ++ [c])) = false) :
    mkdirE S ('/' :: joinSlash (done ++ [c])) now true =
      (⟨S.files, setA S.metadata (joinSlash (done ++ [c])) ⟨0, now, now, true⟩, S.cwd⟩,
        .ok ()) := by
  have hne : done ++ [c] ≠ [] := by simp
  have hGP : GoodPath (joinSlash (done ++ [c])) := GoodPath_join _ hne hg
  have hres : resolvePathE S ('/' :: joinSlash (done ++ [c])) = joinSlash (done ++ [c]) :=
    resolvePathE_abs_join S _ hne hg
  have hpar : parentOf (joinSlash (done ++ [c])) = joinSlash done := by
    unfold parentOf
    rw [splitSlash_good_join (done ++ [c]) hne hg, List.dropLast_concat]
  have hf2 : isfileE S (joinSlash (done ++ [c])) = false := by
    rw [isfileE_norm_congr S (joinSlash (done ++ [c])) ('/' :: joinSlash (done ++ [c]))
      (by rw [norm_resolve_rel_join S _ hcwd hne hg, norm_resolve_abs_join S _ hne hg])]
    exact hfc
  have hd2 : isdirE S (joinSlash (done ++ [c])) = false := by
    rw [isdirE_norm_congr S (joinSlash (done ++ [c])) ('/' :: joinSlash (done ++ [c]))
      (by rw [norm_resolve_rel_join S _ hcwd hne hg, norm_resolve_abs_join S _ hne hg])]
    exact hnd
  unfold mkdirE
  rw [hres, GoodPath_fixed _ hGP, hpar]
  rw [if_neg (by rintro ⟨h1, h2⟩; exact h2 hdone)]
  rw [if_neg (by simp [hf2]), if_neg (by simp [hd2])]

theorem makedirsGo_ok_all (now : Nat) :
    ∀ (todo done : List (List Char)) (S : VFSState),
      getcwdE S = str "/" →
      (∀ x ∈ done ++ todo, GoodComp x) →
      isdirE S ('/' :: joinSlash done) = true →
      (∀ i : Nat, isfileE S ('/' :: joinSlash ((done ++ todo).take (i + 1))) = false) →
      (makedirsGo now S done todo).2 = .ok () ∧
      (makedirsGo now S done todo).1.files = S.files ∧
      (makedirsGo now S done todo).1.cwd = S.cwd ∧
      isdirE (makedirsGo now S done todo).1 ('/' :: joinSlash (done ++ todo)) = true := by
  intro todo
  induction todo with
  | nil =>
    intro done S hcwd hg hdone hfile
    exact ⟨rfl, rfl, rfl, by simpa using hdone⟩
  | cons c rest ih =>
    intro done S hcwd hg hdone hfile
    have hassoc : (done ++ [c]) ++ rest = done ++ c :: rest := by simp
    have hgd : ∀ x ∈ (done ++ [c]) ++ rest, GoodComp x := by
      intro x hx
      rw [hassoc] at hx
      exact hg x hx
    have hgc : ∀ x ∈ done ++ [c], GoodComp x := fun x hx =>
      hgd x (List.mem_append.mpr (Or.inl hx))
    have hfc : isfileE S ('/' :: joinSlash (done ++ [c])) = false := by
      have h := hfile done.length
      rwa [take_append_succ done c rest] at h
    simp only [makedirsGo]
    rw [if_neg (by simp [hfc])]
    by_cases hd : isdirE S ('/' :: joinSlash (done ++ [c])) = true
    · rw [if_neg (by simp [hd])]
      have hfs : ∀ i,
          isfileE S ('/' :: joinSlash (((done ++ [c]) ++ rest).take (i + 1))) = false := by
        intro i
        rw [hassoc]
        exact hfile i
      have hres := ih (done ++ [c]) S hcwd hgd hd hfs
      rw [hassoc] at hres
      exact hres
    · have hd' : isdirE S ('/' :: joinSlash (done ++ [c])) = false := by
        cases hval : isdirE S ('/' :: joinSlash (done ++ [c])) with
        | true => exact absurd hval hd
        | false => rfl
      rw [if_pos (by simp [hd']), mkdirE_create S done c now hcwd hgc hdone hfc hd']
      have hcwd2 : getcwdE
          ⟨S.files, setA S.metadata (joinSlash (done ++ [c])) ⟨0, now, now, true⟩, S.cwd⟩ =
          str "/" := hcwd
      have hdir2 : isdirE
          ⟨S.files, setA S.metadata (joinSlash (done ++ [c])) ⟨0, now, now, true⟩, S.cwd⟩
          ('/' :: joinSlash (done ++ [c])) = true := by
        refine isdirE_of_meta _ _ ⟨0, now, now, true⟩ ?_ rfl
        rw [norm_resolve_abs_join _ (done ++ [c]) (by simp) hgc]
        exact lookupA_setA_self _ _ _
      have hfs2 : ∀ i, isfileE
          ⟨S.files, setA S.metadata (joinSlash (done ++ [c])) ⟨0, now, now, true⟩, S.cwd⟩
          ('/' :: joinSlash (((done ++ [c]) ++ rest).take (i + 1))) = false := by
        intro i
        rw [hassoc]
        exact hfile i
      obtain ⟨h1, h2, h3, h4⟩ := ih (done ++ [c])
        ⟨S.files, setA S.metadata (joinSlash (done ++ [c])) ⟨0, now, now, true⟩, S.cwd⟩
        hcwd2 hgd hdir2 hfs2
      rw [hassoc] at h4
      exact ⟨h1, h2, h3, h4⟩

theorem makedirsE_ok (S : VFSState) (l : List (List Char)) (now : Nat)
    (hcwd : getcwdE S = str "/") (hne : l ≠ []) (hg : ∀ x ∈ l, GoodComp x)
    (hfile : ∀ i : Nat, isfileE S ('/' :: joinSlash (l.take (i + 1))) = false) :
    (makedirsE S ('/' :: joinSlash l) now).2 = .ok () ∧
    (makedirsE S ('/' :: joinSlash l) now).1.files = S.files ∧
    (makedirsE S ('/' :: joinSlash l) now).1.cwd = S.cwd ∧
    isdirE (makedirsE S ('/' :: joinSlash l) now).1 ('/' :: joinSlash l) = true := by
  unfold makedirsE
  rw [resolvePathE_abs_join S l hne hg, stripSlash_good_join l hne hg,
    splitSlash_good_join l hne hg]
  have h := makedirsGo_ok_all now l [] S hcwd (by simpa using hg) (isdirE_root S)
    (by simpa using hfile)
  simpa using h

theorem readE_congr (S S' : VFSState) (hf : S'.files = S.files) (hc : S'.cwd = S.cwd)
    (p : List Char) : readE S' p = readE S p := by
  unfold readE
  rw [encodePathE_congr S S' hc, hf]

theorem readE_writeCommit (S1 : VFSState) (p : List Char) (c2 : List Nat) (now : Nat) :
    readE (writeCommit S1 p c2 now) p = .ok c2 := by
  obtain ⟨cr, hupd, _⟩ := updateFileMetadataE_parts
    { S1 with files := setA S1.files (encodePathE S1 p) c2 } p c2.length
    (lookupA S1.files (encodePathE S1 p)).isNone now
  have h2 : readE (writeCommit S1 p c2 now) p =
      readE { S1 with files := setA S1.files (encodePathE S1 p) c2 } p := by
    unfold writeCommit
    rw [hupd]
    apply readE_congr
    · rfl
    · rfl
  rw [h2]
  unfold readE
  rw [encodePathE_congr S1 { S1 with files := setA S1.files (encodePathE S1 p) c2 } rfl]
  rw [show ({ S1 with files := setA S1.files (encodePathE S1 p) c2 } : VFSState).files =
    setA S1.files (encodePathE S1 p) c2 from rfl]
  rw [lookupA_setA_self]

/-- The write path through a missing parent: with the cwd at the root (so
the relative-form existence probes inside mkdir do not alias) and no file
shadowing a re-normalized parent prefix, write auto-creates the parents and
commits, and the content reads back.  P abbreviates the parent of the
resolved path. -/
theorem write_creates_parent (S : VFSState) (P p : List Char) (c : List Nat) (t : Nat)
    (hP : parentOf (normalizePath (resolvePathE S p)) = P)
    (hcwd : getcwdE S = str "/")
    (hpar : P ≠ [])
    (hnd : isdirE S ('/' :: P) = false)
    (hPbs : '\\' ∉ '/' :: P)
    (hnofile : ∀ i : Nat, isfileE S ('/' :: joinSlash
      ((splitSlash (normalizePath ('/' :: P))).take (i + 1))) = false) :
    (writeE none S p c t (str "w")).2 = .ok () ∧
    readE (writeE none S p c t (str "w")).1 p = .ok c := by
  have habs : ('/' :: P).take 1 = ['/'] := by simp [List.take]
  have hGw : GoodPath (normalizePath ('/' :: P)) := normalizePath_abs_good _ habs hPbs
  have hres : resolvePathE S ('/' :: P) = normalizePath ('/' :: P) := by
    unfold resolvePathE
    rw [if_pos habs]
  have hwroot : normalizePath ('/' :: P) ≠ str "/" := by
    intro h
    have hdir : isdirE S ('/' :: P) = true := by
      unfold isdirE
      rw [hres, h]
      rw [if_pos (Or.inr (by decide))]
    simp [hdir] at hnd
  have hm_good : ∀ x ∈ splitSlash (normalizePath ('/' :: P)), GoodComp x := by
    rcases hGw with h | h
    · exact absurd h hwroot
    · exact h
  have hmne : splitSlash (normalizePath ('/' :: P)) ≠ [] := splitSlash_ne_nil _
  have hjoin : joinSlash (splitSlash (normalizePath ('/' :: P))) = normalizePath ('/' :: P) :=
    joinSlash_splitSlash _
  have hstrip : stripSlash (normalizePath ('/' :: P)) = normalizePath ('/' :: P) := by
    conv_lhs => rw [← hjoin]
    rw [stripSlash_good_join _ hmne hm_good, hjoin]
  have hmk : (makedirsE S ('/' :: P) t).2 = .ok () := by
    unfold makedirsE
    rw [hres, hstrip]
    exact (makedirsGo_ok_all t (splitSlash (normalizePath ('/' :: P))) [] S hcwd
      (by simpa using hm_good) (isdirE_root S) (by simpa using hnofile)).1
  have hwp : writeParent S p t = ((makedirsE S ('/' :: P) t).1, .ok ()) := by
    unfold writeParent
    rw [hP]
    rw [if_pos ⟨hpar, by simp [hnd]⟩]
    rcases hres3 : makedirsE S ('/' :: P) t with ⟨S1, r⟩
    rw [hres3] at hmk
    simp only at hmk
    rw [hmk]
  have hwE : writeE none S p c t (str "w") =
      (writeCommit (makedirsE S ('/' :: P) t).1 p c t, .ok ()) := by
    unfold writeE
    rw [hwp]
    rfl
  exact ⟨by rw [hwE], by rw [hwE]; exact readE_writeCommit _ p c t⟩

/-! ### Descriptor-table lemmas -/

theorem allocBuf_fresh {σ : Type} (ops : FSOps σ) (s : σ) (r : List Char) (flags : Nat)
    (fe : Bool) (h : flags &&& oTRUNC ≠ 0 ∨ fe = false) :
    allocBuf ops s r flags fe = .ok ⟨[], 0⟩ := by
  unfold allocBuf
  rw [if_neg]
  rintro ⟨h1, h2⟩
  rcases h with h | h
  · exact h h2
  · rw [h] at h1
    exact absurd h1 (by decide)

theorem allocateE_ok_destruct {σ : Type} (ops : FSOps σ) (s : σ) (tbl : FDTable)
    (p : List Char) (flags fileMode : Nat) (s1 : σ) (tbl1 : FDTable) (fd : Nat)
    (htrunc : flags &&& oTRUNC ≠ 0 ∨ ops.fsexists s (ops.resolve_path s p) = false)
    (halloc : allocateE ops s tbl p flags fileMode = ((s1, tbl1), .ok fd)) :
    fd = tbl.nextFd ∧
    tbl1 = ⟨(tbl.nextFd,
        ⟨ops.resolve_path s p, ⟨[], 0⟩, flags, fileMode,
          decide (flags &&& 3 = 1 ∨ flags &&& 3 = 2),
          decide (flags &&& 3 = 0 ∨ flags &&& 3 = 2), false⟩) :: tbl.entries,
      tbl.nextFd + 1⟩ := by
  unfold allocateE at halloc
  split at halloc
  · simp at halloc
  · split at halloc
    · simp at halloc
    · rw [allocBuf_fresh ops s (ops.resolve_path s p) flags
        (ops.fsexists s (ops.resolve_path s p)) htrunc] at halloc
      split at halloc
      · rename_i e heq
        simp at heq
      · rename_i buf heq
        have hbuf : (⟨[], 0⟩ : VFDBuf) = buf := Except.ok.inj heq
        subst hbuf
        cases hC : allocCreate ops s (ops.resolve_path s p) flags
            (ops.fsexists s (ops.resolve_path s p)) with
        | mk sa ra =>
          rw [hC] at halloc
          cases ra with
          | error e => simp at halloc
          | ok u =>
            simp only [Prod.mk.injEq] at halloc
            exact ⟨(Except.ok.inj halloc.2).symm, halloc.1.2.symm⟩

theorem vfsOsWriteWrap_fresh (tbl : FDTable) (orig : Nat → List Nat → Except Err Nat)
    (fd : Nat) (vfd : VirtualFD) (b : List Nat)
    (hl : lookupA tbl.entries fd = some vfd) (hw : vfd.writable = true)
    (hbuf : vfd.buffer = ⟨[], 0⟩) :
    vfsOsWriteWrap tbl orig fd b =
      (⟨setA tbl.entries fd { vfd with buffer := ⟨b, b.length⟩ }, tbl.nextFd⟩,
        .ok b.length) := by
  unfold vfsOsWriteWrap
  rw [hl]
  simp only
  rw [if_neg (fun hc => hc hw), hbuf]
  have hbw : bufWrite (⟨[], 0⟩ : VFDBuf) b = (⟨b, b.length⟩, b.length) := by
    simp [bufWrite]
  rw [hbw]

theorem fdCloseE_flush {σ : Type} (ops : FSOps σ) (s : σ) (tbl : FDTable) (fd : Nat)
    (vfd : VirtualFD) (hl : lookupA tbl.entries fd = some vfd)
    (hc : vfd.closed = false) (hw : vfd.writable = true) (s2 : σ) (tbl2 : FDTable)
    (h : fdCloseE ops s tbl fd = ((s2, tbl2), .ok ())) :
    ops.fswrite s vfd.path vfd.buffer.content = (s2, .ok ()) := by
  unfold fdCloseE at h
  rw [hl] at h
  simp only at h
  rw [if_neg (by simp [hc]), if_pos hw] at h
  cases hfw : ops.fswrite s vfd.path vfd.buffer.content with
  | mk sx r =>
    rw [hfw] at h
    cases r with
    | ok u =>
      simp only [Prod.mk.injEq] at h
      cases u
      rw [h.1.1]
    | error e =>
      simp at h

/-! ### Claim theorems -/

/-- C1: for every IsolatedFS rooted at a directory and every input path
(relative to the virtual cwd or virtually absolute), _validate_path either
returns a resolved host path lying under the root or raises
permission-denied; no other outcome is possible (the Except value has no
third alternative), and in particular no path outside the root is ever
returned.  The host resolver (pathlib resolve with symlink following) is
arbitrary. -/
theorem c1_validate_under_root (root : List (List Char))
    (resolver : List (List Char) → List (List Char)) (cwd path : List Char) :
    (∃ q, validatePath root resolver cwd path = .ok q ∧ isPre root q = true) ∨
    validatePath root resolver cwd path = .error .permission := by
  unfold validatePath
  by_cases h : isPre root (vpResolved root resolver cwd path) = true
  · rw [if_pos h]
    exact Or.inl ⟨_, rfl, h⟩
  · rw [if_neg h]
    exact Or.inr rfl

/-- C2 (amended to normalized paths, as the spec states it): immediately
after a successful write(p, c) at clock t, read(p) returns exactly c and
stat(p).size equals len(c); if p already existed its created-at is taken
unchanged from the previous metadata entry, and modified-at is t, hence
non-decreasing across successive writes at non-decreasing clocks. -/
theorem c2_write_read_stat (mx : Option Nat) (S S' : VFSState) (p : List Char)
    (c : List Nat) (t : Nat) (hnorm : normalizePath p = p)
    (hw : writeE mx S p c t (str "w") = (S', .ok ())) :
    readE S' p = .ok c ∧
    (∀ now, ∃ m, statE S' p now = .ok m ∧ m.size = c.length ∧ m.modified_at = t) ∧
    (∀ m0 now0, isfileE S p = true → statE S p now0 = .ok m0 →
      ∀ now, ∃ m, statE S' p now = .ok m ∧ m.created_at = m0.created_at) ∧
    (∀ c2 t2 S'', t ≤ t2 → writeE mx S' p c2 t2 (str "w") = (S'', .ok ()) →
      ∀ now now2, ∃ m m2, statE S' p now = .ok m ∧ statE S'' p now2 = .ok m2 ∧
        m.modified_at ≤ m2.modified_at) := by
  obtain ⟨hread, cr, hstat, hcr⟩ := writeE_ok_stat mx S p c t S' hnorm hw
  refine ⟨hread, fun now => ⟨_, hstat now, rfl, rfl⟩, ?_, ?_⟩
  · intro m0 now0 hf hs
    have hl : lookupA S.metadata p = some m0 := by
      unfold statE at hs
      rw [if_pos hf, hnorm] at hs
      cases hx : lookupA S.metadata p with
      | none => rw [hx] at hs; simp at hs
      | some m1 =>
        rw [hx] at hs
        rw [Except.ok.inj hs]
    have hm : (lookupA S.files (encodePathE S p)).isSome = true := hf
    intro now
    exact ⟨_, hstat now, hcr hm m0 hl⟩
  · intro c2 t2 S'' ht hw2 now now2
    obtain ⟨_, cr2, hstat2, _⟩ := writeE_ok_stat mx S' p c2 t2 S'' hnorm hw2
    exact ⟨_, _, hstat now, hstat2 now2, ht⟩

/-- Witness for C2 at a concrete input: write "a" := [120] at clock 0 on an
empty VirtualFS. -/
theorem c2_write_read_stat_witness :
    readE aliasState1 (str "a") = .ok [120] ∧
    (∃ m, statE aliasState1 (str "a") 9 = .ok m ∧ m.size = 1 ∧ m.modified_at = 0) := by
  have h := c2_write_read_stat none emptyVFS aliasState1 (str "a") [120] 0
    (by decide) (by rfl)
  exact ⟨h.1, h.2.1 9⟩

/-- Counterexample to C2 as frozen (over every path): after a successful
overwrite of the existing file through the non-normalized alias "./a" with
two bytes, read returns the two bytes but stat reports the stale size 1,
because the metadata is updated under the raw key "./a" while stat reads
the normalized key "a". -/
theorem c2_counterexample :
    (writeE none aliasState1 (str "./a") [120, 121] 1 (str "w")).2 = .ok () ∧
    readE aliasState2 (str "./a") = .ok [120, 121] ∧
    statE aliasState2 (str "./a") 9 = .ok ⟨1, 0, 0, false⟩ ∧
    (1 : Nat) ≠ [120, 121].length := by
  exact ⟨rfl, rfl, rfl, by decide⟩

/-- C3: while an FS is active, the routed open(p, "r") and stat(p) succeed by
falling back to the snapshotted originals whenever the path is a safe system
path and the FS raises permission-denied or not-found. -/
theorem c3_safe_path_fallback {α ρ : Type}
    (fo : List Char → List Char → Except Err α)
    (fstat : List Char → Except Err FileMetadata)
    (isSafe : List Char → Bool)
    (origOpen : List Char → Except Err α) (origStat : List Char → Except Err ρ)
    (conv : FileMetadata → ρ) (p : List Char) (e1 e2 : Err) (h : α) (r : ρ)
    (he1 : e1 = .permission ∨ e1 = .notFound)
    (hfo : fo p (str "r") = .error e1)
    (he2 : e2 = .permission ∨ e2 = .notFound)
    (hfs : fstat p = .error e2)
    (hsafe : isSafe p = true)
    (ho : origOpen p = .ok h) (hs : origStat p = .ok r) :
    vfsOpenWrap false (some fo) isSafe origOpen p (str "r") = .ok h ∧
    vfsStatWrap false (some fstat) isSafe origStat conv p = .ok r := by
  constructor
  · unfold vfsOpenWrap
    rw [if_neg (by simp)]
    simp only
    rw [hfo]
    simp only
    rw [if_pos he1, if_pos ⟨by decide, by decide, by decide, by decide, hsafe⟩]
    exact ho
  · unfold vfsStatWrap
    rw [if_neg (by simp)]
    simp only
    rw [hfs]
    rcases he2 with rfl | rfl
    · simp only
      rw [if_pos hsafe]
      exact hs
    · simp only
      rw [if_pos hsafe]
      exact hs

/-- Witness for C3: a backend raising not-found on a safe path with a
concrete original. -/
theorem c3_safe_path_fallback_witness :
    vfsOpenWrap false (some (fun _ _ => (.error .notFound : Except Err Nat)))
      (fun _ => true) (fun _ => .ok 5) (str "/usr/lib/python/os.py") (str "r") = .ok 5 ∧
    vfsStatWrap false (some (fun _ => (.error .notFound : Except Err FileMetadata)))
      (fun _ => true) (fun _ => (.ok 3 : Except Err Nat)) (fun _ => 0)
      (str "/usr/lib/python/os.py") = .ok 3 := by
  exact c3_safe_path_fallback (fun _ _ => .error .notFound) (fun _ => .error .notFound)
    (fun _ => true) (fun _ => .ok 5) (fun _ => .ok 3) (fun _ => 0)
    (str "/usr/lib/python/os.py") .notFound .notFound 5 3
    (Or.inr rfl) rfl (Or.inr rfl) rfl rfl rfl rfl

/-- C5: for every activation or suspension scope and every prior value of
the task-local cell, the cell after the scope exits equals the value it held
immediately before entry, for every body, including bodies that raise (the
body result is an arbitrary Except and the reset runs in the finally). -/
theorem c5_scope_restores {α β E : Type} (fs : α) (c : CtxCell (Option α))
    (body body2 : CtxCell (Option α) → CtxCell (Option α) × Except E β) :
    (patchScope fs c body).1.val = c.val ∧ (suspendScope c body2).1.val = c.val := by
  constructor
  · rcases hb : body ⟨some fs⟩ with ⟨c2, r⟩
    simp [patchScope, ctxSet, ctxReset, hb]
  · rcases hb : body2 ⟨none⟩ with ⟨c2, r⟩
    simp [suspendScope, ctxSet, ctxReset, hb]

/-- Counterexample to C6 as frozen: on a zero-cap VirtualFS, writing one
byte to "d/f" fails with the size-limit error, yet the backing store is not
exactly as before: the auto-created explicit directory entry "d" remains in
the metadata. -/
theorem c6_counterexample :
    (writeE (some 0) emptyVFS (str "d/f") [120] 0 (str "w")).2 = .error .sizeLimit ∧
    (writeE (some 0) emptyVFS (str "d/f") [120] 0 (str "w")).1.metadata =
      [(str "d", ⟨0, 0, 0, true⟩)] ∧
    emptyVFS.metadata = [] ∧
    (writeE (some 0) emptyVFS (str "d/f") [120] 0 (str "w")).1 ≠ emptyVFS := by
  exact ⟨rfl, rfl, rfl, by decide⟩

/-- C6 (amended): a write that would exceed the size cap fails with the
size-limit error before the file content or its file metadata is stored:
file contents and cwd are unchanged, and the only possible metadata changes
are explicit directory entries auto-created for missing parents before the
check runs. -/
theorem c6_sizeLimit_premutation (mx : Option Nat) (S S' : VFSState) (p : List Char)
    (c : List Nat) (t : Nat) (mode : List Char)
    (h : writeE mx S p c t mode = (S', .error .sizeLimit)) :
    S'.files = S.files ∧ S'.cwd = S.cwd ∧
    ∀ q, lookupA S'.metadata q = lookupA S.metadata q ∨
      lookupA S'.metadata q = some ⟨0, t, t, true⟩ := by
  have hS' := writeE_sizeLimit_destruct mx S p c t mode S' h
  have hP := writeParent_parts S p t
  rw [hS'] at hP
  exact hP

/-- Witness for C6 (amended) at the zero-cap instance. -/
theorem c6_sizeLimit_premutation_witness :
    (writeE (some 0) emptyVFS (str "d/e") [7] 2 (str "w")).1.files = emptyVFS.files ∧
    (writeE (some 0) emptyVFS (str "d/e") [7] 2 (str "w")).1.cwd = emptyVFS.cwd ∧
    (lookupA (writeE (some 0) emptyVFS (str "d/e") [7] 2 (str "w")).1.metadata (str "d") =
        lookupA emptyVFS.metadata (str "d") ∨
      lookupA (writeE (some 0) emptyVFS (str "d/e") [7] 2 (str "w")).1.metadata (str "d") =
        some ⟨0, 2, 2, true⟩) := by
  have h := c6_sizeLimit_premutation (some 0) emptyVFS
    (writeE (some 0) emptyVFS (str "d/e") [7] 2 (str "w")).1 (str "d/e") [7] 2 (str "w")
    (by rfl)
  exact ⟨h.1, h.2.1, h.2.2 (str "d")⟩

/-- C8: the routed utime is a no-op on existing FS paths (claim says it
should update modified-at): evaluated at the failing input of
test_patching.py::test_utime_patched, the wrapper returns without touching
the state, and the stored modified-at stays 5 instead of becoming the
requested 99. -/
theorem c8_utime_noop_eval :
    vfsUtimeWrap true utimeState (fun _ => false) (str "file.txt") (some (0, 99)) =
      (utimeState, .ok .virtualNoop) ∧
    statE utimeState (str "file.txt") 7 = .ok ⟨2, 5, 5, false⟩ ∧
    (5 : Nat) ≠ 99 := by
  exact ⟨rfl, rfl, by decide⟩

/-- C7: while an FS is active, expanduser maps "~" to "/" and "~/rest" to
"/rest"; expandvars rewrites "$HOME", "${HOME}", "$HOME/rest" and
"${HOME}/rest" to the corresponding "/"-rooted forms; and an environment
lookup of HOME returns "/".  rest is any remainder without a further
dollar occurrence. -/
theorem c7_home_expansion (orig1 : List Char → List Char)
    (orig2 : List Char → Option (List Char)) (orig3 : List Char → List Char)
    (rest : List Char) (hrest : '$' ∉ rest) :
    vfsExpanduserWrap true orig1 (str "~") = str "/" ∧
    vfsExpanduserWrap true orig1 ('~' :: '/' :: rest) = '/' :: rest ∧
    vfsGetenvWrap true orig2 (str "HOME") = some (str "/") ∧
    vfsExpandvarsWrap true orig3 (str "$HOME") = str "/" ∧
    vfsExpandvarsWrap true orig3 (str "$\x7bHOME\x7d") = str "/" ∧
    vfsExpandvarsWrap true orig3 (str "$HOME/" ++ rest) = '/' :: rest ∧
    vfsExpandvarsWrap true orig3 (str "$\x7bHOME\x7d/" ++ rest) = '/' :: rest := by
  have hslash : '$' ∉ str "/" ++ rest := by
    intro hm
    rw [show str "/" ++ rest = '/' :: rest from rfl] at hm
    rcases List.mem_cons.mp hm with h | h
    · exact absurd h (by decide)
    · exact hrest h
  refine ⟨rfl, rfl, rfl, rfl, rfl, ?_, ?_⟩
  · unfold vfsExpandvarsWrap
    rw [if_pos rfl]
    rw [show str "$HOME/" = '$' :: str "HOME/" from rfl]
    rw [subLit_cons_hit (str "HOME/") (str "/") rest hrest]
    rw [show str "$\x7bHOME\x7d/" = '$' :: str "\x7bHOME\x7d/" from rfl]
    rw [subLit_no_dollar (str "\x7bHOME\x7d/") (str "/") (str "/" ++ rest) hslash]
    rw [subHomeB_no_dollar (str "/" ++ rest) hslash]
    rw [show str "$\x7bHOME\x7d" = '$' :: str "\x7bHOME\x7d" from rfl]
    rw [subLit_no_dollar (str "\x7bHOME\x7d") (str "/") (str "/" ++ rest) hslash]
    rfl
  · have htail : '$' ∉ str "\x7bHOME\x7d/" ++ rest := by
      intro hm
      rcases List.mem_append.mp hm with h | h
      · exact absurd h (by decide)
      · exact hrest h
    unfold vfsExpandvarsWrap
    rw [if_pos rfl]
    rw [show str "$\x7bHOME\x7d/" ++ rest = '$' :: (str "\x7bHOME\x7d/" ++ rest) from rfl]
    rw [subLit_cons_miss (str "$HOME/") (str "/") '$' (str "\x7bHOME\x7d/" ++ rest)
      (by rfl) ⟨str "HOME/", rfl⟩ htail]
    rw [show ('$' : Char) :: (str "\x7bHOME\x7d/" ++ rest) =
      ('$' :: str "\x7bHOME\x7d/") ++ rest from rfl]
    rw [show str "$\x7bHOME\x7d/" = '$' :: str "\x7bHOME\x7d/" from rfl]
    rw [subLit_cons_hit (str "\x7bHOME\x7d/") (str "/") rest hrest]
    rw [subHomeB_no_dollar (str "/" ++ rest) hslash]
    rw [show str "$\x7bHOME\x7d" = '$' :: str "\x7bHOME\x7d" from rfl]
    rw [subLit_no_dollar (str "\x7bHOME\x7d") (str "/") (str "/" ++ rest) hslash]
    rfl

/-- Witness for C7 with rest := "docs". -/
theorem c7_home_expansion_witness :
    vfsExpanduserWrap true (fun p => p) ('~' :: '/' :: str "docs") = '/' :: str "docs" ∧
    vfsExpandvarsWrap true (fun p => p) (str "$HOME/" ++ str "docs") = '/' :: str "docs" ∧
    vfsExpandvarsWrap true (fun p => p) (str "$\x7bHOME\x7d/" ++ str "docs") =
      '/' :: str "docs" := by
  have h := c7_home_expansion (fun p => p) (fun _ => none) (fun p => p)
    (str "docs") (by decide)
  exact ⟨h.2.1, h.2.2.2.2.2.1, h.2.2.2.2.2.2⟩

/-- C9: the isolated backend's symlink succeeds whenever source and
destination both validate under the configured root, and readlink never
returns a target resolving outside the root (it errors instead); modelled
from the spec since IsolatedFS.symlink/readlink are absent from src. -/
theorem c9_isolated_symlink_readlink (root : List (List Char))
    (resolver : List (List Char) → List (List Char)) (cwd : List Char)
    (src dst p : List Char)
    (readTarget : List (List Char) → Option (List (List Char))) :
    (∀ s1 s2, validatePath root resolver cwd src = .ok s1 →
      validateNoFollow root resolver cwd dst = .ok s2 →
      symlinkIFS root resolver cwd src dst = .ok ()) ∧
    (∀ tgt, readlinkIFS root resolver cwd readTarget p = .ok tgt →
      isPre root (resolver tgt) = true) := by
  constructor
  · intro s1 s2 h1 h2
    unfold symlinkIFS
    rw [h1, h2]
  · intro tgt h
    unfold readlinkIFS at h
    cases hv : validateNoFollow root resolver cwd p with
    | error e => rw [hv] at h; simp at h
    | ok loc =>
      rw [hv] at h
      simp only at h
      cases ht : readTarget loc with
      | none => rw [ht] at h; simp at h
      | some tg =>
        rw [ht] at h
        simp only at h
        by_cases hp : isPre root (resolver tg) = true
        · rw [if_pos hp] at h
          rw [← Except.ok.inj h]
          exact hp
        · rw [if_neg hp] at h
          simp at h

/-- Witness for C9 on a concrete two-component root with the identity
resolver. -/
theorem c9_isolated_symlink_readlink_witness :
    symlinkIFS [str "tmp", str "root"] (fun l => l) (str "/") (str "a") (str "b") =
      .ok () ∧
    isPre [str "tmp", str "root"]
      ((fun (l : List (List Char)) => l) [str "tmp", str "root", str "a"]) = true := by
  have h := c9_isolated_symlink_readlink [str "tmp", str "root"] (fun l => l)
    (str "/") (str "a") (str "b") (str "b")
    (fun _ => some [str "tmp", str "root", str "a"])
  refine ⟨h.1 [str "tmp", str "root", str "a"] [str "tmp", str "root", str "b"] rfl rfl, ?_⟩
  exact h.2 [str "tmp", str "root", str "a"] rfl

/-- C4 (amended): after a low-level open with write access that either
truncates (O_TRUNC) or targets a non-existent path, writing b through the
fresh virtual descriptor reports len(b) bytes written, and a successful
close flushes so that reading the resolved path from the backend yields
exactly b.  The backend is abstract, assumed read-after-write consistent. -/
theorem c4_fd_write_close {σ : Type} (ops : FSOps σ) (s : σ) (tbl : FDTable)
    (p : List Char) (flags fileMode : Nat) (b : List Nat)
    (orig : Nat → List Nat → Except Err Nat) (s1 : σ) (tbl1 : FDTable) (fd : Nat)
    (hacc : flags &&& 3 = 1 ∨ flags &&& 3 = 2)
    (htrunc : flags &&& oTRUNC ≠ 0 ∨ ops.fsexists s (ops.resolve_path s p) = false)
    (halloc : allocateE ops s tbl p flags fileMode = ((s1, tbl1), .ok fd))
    (hrw : ∀ (st : σ) (q : List Char) (c : List Nat) (st' : σ),
      ops.fswrite st q c = (st', .ok ()) → ops.fsread st' q = .ok c) :
    (vfsOsWriteWrap tbl1 orig fd b).2 = .ok b.length ∧
    ∀ s2 tbl2,
      fdCloseE ops s1 (vfsOsWriteWrap tbl1 orig fd b).1 fd = ((s2, tbl2), .ok ()) →
      ops.fsread s2 (ops.resolve_path s p) = .ok b := by
  obtain ⟨hfd, htbl⟩ := allocateE_ok_destruct ops s tbl p flags fileMode s1 tbl1 fd
    htrunc halloc
  subst hfd
  subst htbl
  have hW := vfsOsWriteWrap_fresh
    ⟨(tbl.nextFd,
        ⟨ops.resolve_path s p, ⟨[], 0⟩, flags, fileMode,
          decide (flags &&& 3 = 1 ∨ flags &&& 3 = 2),
          decide (flags &&& 3 = 0 ∨ flags &&& 3 = 2), false⟩) :: tbl.entries,
      tbl.nextFd + 1⟩ orig tbl.nextFd
    ⟨ops.resolve_path s p, ⟨[], 0⟩, flags, fileMode,
      decide (flags &&& 3 = 1 ∨ flags &&& 3 = 2),
      decide (flags &&& 3 = 0 ∨ flags &&& 3 = 2), false⟩ b
    (by simp [lookupA]) (decide_eq_true hacc) rfl
  constructor
  · rw [hW]
  · intro s2 tbl2 hcl
    rw [hW] at hcl
    have hfl := fdCloseE_flush ops s1 _ tbl.nextFd
      ⟨ops.resolve_path s p, ⟨b, b.length⟩, flags, fileMode,
        decide (flags &&& 3 = 1 ∨ flags &&& 3 = 2),
        decide (flags &&& 3 = 0 ∨ flags &&& 3 = 2), false⟩
      (by simp [setA, lookupA]) rfl (decide_eq_true hacc) s2 tbl2 hcl
    exact hrw s1 (ops.resolve_path s p) b s2 hfl

/-- Counterexample to C4 as frozen (every open with write access): opening
the existing three-byte file "t" with plain O_WRONLY (no O_TRUNC), writing
one byte and closing leaves the backend holding the partially overwritten
[97, 121, 122], not [97]. -/
theorem c4_counterexample :
    fdAlloc0.2 = .ok 10000 ∧
    (vfsOsWriteWrap fdAlloc0.1.2 (fun _ _ => .error .badFd) 10000 [97]).2 = .ok 1 ∧
    fdClose0.2 = .ok () ∧
    lookupA fdClose0.1.1 (str "t") = some [97, 121, 122] ∧
    [97, 121, 122] ≠ [97] := by
  exact ⟨rfl, rfl, rfl, rfl, by decide⟩

/-- Witness for C4 (amended): the same file opened with O_WRONLY|O_TRUNC. -/
theorem c4_fd_write_close_witness :
    (vfsOsWriteWrap
        (allocateE listFS fdState0 fdTable0 (str "t") (oWRONLY + oTRUNC) 438).1.2
        (fun _ _ => .error .badFd) 10000 [97]).2 = .ok 1 ∧
    listFS.fsread
      ((fdCloseE listFS
          (allocateE listFS fdState0 fdTable0 (str "t") (oWRONLY + oTRUNC) 438).1.1
          (vfsOsWriteWrap
            (allocateE listFS fdState0 fdTable0 (str "t") (oWRONLY + oTRUNC) 438).1.2
            (fun _ _ => .error .badFd) 10000 [97]).1 10000).1.1)
      (listFS.resolve_path fdState0 (str "t")) = .ok [97] := by
  have hrw : ∀ (st : List (List Char × List Nat)) (q : List Char) (c : List Nat) st',
      listFS.fswrite st q c = (st', .ok ()) → listFS.fsread st' q = .ok c := by
    intro st q c st' h
    have h1 : setA st q c = st' := congrArg Prod.fst h
    rw [← h1]
    show (match lookupA (setA st q c) q with
      | some c0 => (.ok c0 : Except Err (List Nat))
      | none => .error Err.notFound) = .ok c
    rw [lookupA_setA_self]
  have h := c4_fd_write_close listFS fdState0 fdTable0 (str "t") (oWRONLY + oTRUNC) 438
    [97] (fun _ _ => .error .badFd)
    (allocateE listFS fdState0 fdTable0 (str "t") (oWRONLY + oTRUNC) 438).1.1
    (allocateE listFS fdState0 fdTable0 (str "t") (oWRONLY + oTRUNC) 438).1.2
    10000 (by decide) (Or.inl (by decide)) rfl hrw
  exact ⟨h.1,
    h.2 ((fdCloseE listFS
        (allocateE listFS fdState0 fdTable0 (str "t") (oWRONLY + oTRUNC) 438).1.1
        (vfsOsWriteWrap
          (allocateE listFS fdState0 fdTable0 (str "t") (oWRONLY + oTRUNC) 438).1.2
          (fun _ _ => .error .badFd) 10000 [97]).1 10000).1.1)
      ((fdCloseE listFS
        (allocateE listFS fdState0 fdTable0 (str "t") (oWRONLY + oTRUNC) 438).1.1
        (vfsOsWriteWrap
          (allocateE listFS fdState0 fdTable0 (str "t") (oWRONLY + oTRUNC) 438).1.2
          (fun _ _ => .error .badFd) 10000 [97]).1 10000).1.2) rfl⟩

/-- C10 (amended): for every state with the working directory at the root
and every path p (backslashes included) whose parent directory is missing
and whose re-normalized parent prefixes are not shadowed by files: open in
write or append mode raises not-found, open in exclusive mode raises
not-found or the exists-error (the latter when the path itself is a
registered entry), and open mutates nothing (it is a pure function of the
state here), whereas write on the same state succeeds by auto-creating the
missing parents, after which the content is readable.  The root-cwd and
unshadowed-prefix hypotheses are each forced by a branch of the
counterexample: mkdir probes existence through cwd-relative re-resolution,
so a non-root cwd can alias the probes and make write fail, and a file at a
prefix makes makedirs raise the exists-error. -/
theorem c10_missing_parent (S : VFSState) (p : List Char) (c : List Nat) (t : Nat)
    (hcwd : getcwdE S = str "/")
    (hpar : parentOf (normalizePath (resolvePathE S p)) ≠ [])
    (hnd : isdirE S ('/' :: parentOf (normalizePath (resolvePathE S p))) = false)
    (hnofile : ∀ i : Nat, isfileE S ('/' :: joinSlash
      ((splitSlash (normalizePath
        ('/' :: parentOf (normalizePath (resolvePathE S p))))).take (i + 1))) = false) :
    (∀ mode, 'r' ∉ mode → ('w' ∈ mode ∨ 'a' ∈ mode) → 'x' ∉ mode →
      openE S p mode = .error .notFound) ∧
    (∀ mode, 'r' ∉ mode → 'x' ∈ mode →
      openE S p mode = .error .notFound ∨ openE S p mode = .error .dupFile) ∧
    (writeE none S p c t (str "w")).2 = .ok () ∧
    readE (writeE none S p c t (str "w")).1 p = .ok c := by
  have hPbs : '\\' ∉ '/' :: parentOf (normalizePath (resolvePathE S p)) := by
    intro hm
    rcases List.mem_cons.mp hm with h | h
    · exact absurd h (by decide)
    · rcases mem_joinSlash h with h2 | ⟨x, hx, hmem⟩
      · exact absurd h2 (by decide)
      · exact normalizePath_no_bs (resolvePathE S p)
          (splitSlash_chars _ x (mem_of_mem_dropLast hx) '\\' hmem)
  obtain ⟨hw1, hw2⟩ := write_creates_parent S
    (parentOf (normalizePath (resolvePathE S p))) p c t rfl hcwd hpar hnd hPbs hnofile
  refine ⟨?_, ?_, hw1, hw2⟩
  · intro mode h1 h2 h3
    unfold openE
    rw [if_neg (fun hc0 => h1 hc0.1)]
    rw [if_pos (by rcases h2 with h | h; exacts [Or.inl h, Or.inr (Or.inl h)])]
    rw [if_neg (fun hc0 => h3 hc0.1)]
    rw [if_pos ⟨hpar, by simp [hnd]⟩]
  · intro mode h1 hx
    unfold openE
    rw [if_neg (fun hc0 => h1 hc0.1)]
    rw [if_pos (Or.inr (Or.inr hx))]
    by_cases hex : existsE S p = true
    · rw [if_pos ⟨hx, hex⟩]
      exact Or.inr rfl
    · rw [if_neg (fun hc0 => hex hc0.2)]
      rw [if_pos ⟨hpar, by simp [hnd]⟩]
      exact Or.inl rfl

/-- Counterexample to C10 as frozen: (a) exclusive-mode open of the explicit
directory entry "d/x" without its parent "d" raises the exists-error, not
not-found; (b) under the non-root cwd "/sub" with the single explicit
directory "sub/sub" and no files at all, the relative-form existence probes
inside mkdir alias through the cwd, makedirs skips creating "sub", and
write("x/f") fails with not-found instead of succeeding; (c) with a file
stored at "a", write("a/b/c") fails with the exists-error instead of
auto-creating "a/b". -/
theorem c10_counterexample :
    (parentOf (normalizePath (resolvePathE dirOnlyState (str "d/x"))) ≠ [] ∧
      isdirE dirOnlyState
        ('/' :: parentOf (normalizePath (resolvePathE dirOnlyState (str "d/x")))) = false ∧
      openE dirOnlyState (str "d/x") (str "x") = .error .dupFile ∧
      Err.dupFile ≠ Err.notFound) ∧
    (cwdState.files = [] ∧ getcwdE cwdState = str "/sub" ∧
      parentOf (normalizePath (resolvePathE cwdState (str "x/f"))) ≠ [] ∧
      isdirE cwdState
        ('/' :: parentOf (normalizePath (resolvePathE cwdState (str "x/f")))) = false ∧
      (writeE none cwdState (str "x/f") [104] 0 (str "w")).2 = .error .notFound) ∧
    (parentOf (normalizePath (resolvePathE aliasState1 (str "a/b/c"))) ≠ [] ∧
      isdirE aliasState1
        ('/' :: parentOf (normalizePath (resolvePathE aliasState1 (str "a/b/c")))) = false ∧
      (writeE none aliasState1 (str "a/b/c") [104] 0 (str "w")).2 = .error .dupFile) := by
  exact ⟨⟨by decide, rfl, rfl, by decide⟩, ⟨rfl, rfl, by decide, rfl, rfl⟩,
    ⟨by decide, rfl, rfl⟩⟩

/-- Witness for C10 (amended) on the empty VirtualFS with path "d/f". -/
theorem c10_missing_parent_witness :
    openE emptyVFS (str "d/f") (str "w") = .error .notFound ∧
    (writeE none emptyVFS (str "d/f") [104] 3 (str "w")).2 = .ok () ∧
    readE (writeE none emptyVFS (str "d/f") [104] 3 (str "w")).1 (str "d/f") =
      .ok [104] := by
  have h := c10_missing_parent emptyVFS (str "d/f") [104] 3 rfl
    (by decide) (by decide) (fun _ => rfl)
  exact ⟨h.1 (str "w") (by decide) (Or.inl (by decide)) (by decide), h.2.2.1, h.2.2.2⟩

end Monkeyfs
